import Mathlib

/-!
Verification of the classic Disco worker task pipeline
(`lib/disco/worker/classic/worker.py`) against its natural-language
specification.  The Python code is shallowly embedded: generators become
functions producing event lists, in-place dictionary mutation becomes
explicit association-list state passing, Python truthiness of
`int`-or-`None` options becomes a boolean test on `Option Nat`, and
exceptions become `Except` or explicit error components.  Collaborator
code that lives outside this file's source (`disco.util.shuffled`,
`disco.util.inputlist`, `disco.worker.classic.func.disk_sort`,
`disco.events.Status.send`) is modelled from the spec, and each such
definition says so in its doc comment.
-/

namespace Disco

/-- Python truthiness of an `int`-or-`None` option value such as
`self['partitions']` or `self['status_interval']`: `None` and `0` are
falsy, every other integer is truthy. -/
def pyTruthy : Option Nat → Bool
  | none => false
  | some n => n != 0

/-! ## Progress Reporter: `Worker.status_iter` (worker.py lines 309-316)

The generator interleaves yielded items with status messages.  We embed
it as a function from the (finite) input sequence to the list of
observable events: a `yield` for each item handed through, a `periodic`
status for each message sent inside the loop (carrying the running count
`n + 1` formatted into the message), and a `done` status for the final
`"Done: ..."` message.  The source tracks the last enumeration index in
`n` (initialised to `-1` so that an empty input reports `0`); the
embedding tracks the count of items already yielded, which equals that
index plus one. -/

inductive StatusEvent (α : Type) where
  | yield (item : α)
  | periodic (count : Nat)
  | done (count : Nat)
deriving DecidableEq, Repr

/-- Loop body of `Worker.status_iter`: `n` counts the items already
yielded, so the source's 1-based index `n + 1` for the head item is our
`n + 1`.  The periodic message is sent when `status_interval` is truthy
and divides the 1-based index, exactly the source condition
`status_interval and (n + 1) % status_interval == 0`. -/
def statusIterGo (interval : Option Nat) : Nat → List α → List (StatusEvent α)
  | n, [] => [.done n]
  | n, a :: rest =>
      (if pyTruthy interval && (n + 1) % interval.getD 0 == 0
       then [StatusEvent.periodic (n + 1)] else [])
      ++ StatusEvent.yield a :: statusIterGo interval (n + 1) rest

/-- `Worker.status_iter(iterator, message_template)`: event transcript of
the whole generator run, from initial count `0`. -/
def status_iter (interval : Option Nat) (items : List α) : List (StatusEvent α) :=
  statusIterGo interval 0 items

/-- Items passed through by the reporter, in order. -/
def yieldsOf (evs : List (StatusEvent α)) : List α :=
  evs.filterMap fun e => match e with
    | .yield a => some a
    | _ => none

/-- Counts carried by the periodic status messages, in order. -/
def periodicsOf (evs : List (StatusEvent α)) : List Nat :=
  evs.filterMap fun e => match e with
    | .periodic c => some c
    | _ => none

/-- Counts carried by the final status messages, in order. -/
def donesOf (evs : List (StatusEvent α)) : List Nat :=
  evs.filterMap fun e => match e with
    | .done c => some c
    | _ => none

@[simp] theorem yieldsOf_nil : yieldsOf ([] : List (StatusEvent α)) = [] := rfl

@[simp] theorem yieldsOf_append (l₁ l₂ : List (StatusEvent α)) :
    yieldsOf (l₁ ++ l₂) = yieldsOf l₁ ++ yieldsOf l₂ :=
  List.filterMap_append l₁ l₂ _

@[simp] theorem yieldsOf_cons_yield (a : α) (l : List (StatusEvent α)) :
    yieldsOf (.yield a :: l) = a :: yieldsOf l := rfl

@[simp] theorem yieldsOf_cons_periodic (c : Nat) (l : List (StatusEvent α)) :
    yieldsOf (.periodic c :: l) = yieldsOf l := rfl

@[simp] theorem yieldsOf_cons_done (c : Nat) (l : List (StatusEvent α)) :
    yieldsOf (.done c :: l) = yieldsOf l := rfl

@[simp] theorem periodicsOf_nil : periodicsOf ([] : List (StatusEvent α)) = [] := rfl

@[simp] theorem periodicsOf_append (l₁ l₂ : List (StatusEvent α)) :
    periodicsOf (l₁ ++ l₂) = periodicsOf l₁ ++ periodicsOf l₂ :=
  List.filterMap_append l₁ l₂ _

@[simp] theorem periodicsOf_cons_yield (a : α) (l : List (StatusEvent α)) :
    periodicsOf (.yield a :: l) = periodicsOf l := rfl

@[simp] theorem periodicsOf_cons_periodic (c : Nat) (l : List (StatusEvent α)) :
    periodicsOf (.periodic c :: l) = c :: periodicsOf l := rfl

@[simp] theorem periodicsOf_cons_done (c : Nat) (l : List (StatusEvent α)) :
    periodicsOf (.done c :: l) = periodicsOf l := rfl

@[simp] theorem donesOf_nil : donesOf ([] : List (StatusEvent α)) = [] := rfl

@[simp] theorem donesOf_append (l₁ l₂ : List (StatusEvent α)) :
    donesOf (l₁ ++ l₂) = donesOf l₁ ++ donesOf l₂ :=
  List.filterMap_append l₁ l₂ _

@[simp] theorem donesOf_cons_yield (a : α) (l : List (StatusEvent α)) :
    donesOf (.yield a :: l) = donesOf l := rfl

@[simp] theorem donesOf_cons_periodic (c : Nat) (l : List (StatusEvent α)) :
    donesOf (.periodic c :: l) = donesOf l := rfl

@[simp] theorem donesOf_cons_done (c : Nat) (l : List (StatusEvent α)) :
    donesOf (.done c :: l) = c :: donesOf l := rfl

theorem getLastQ_cons_of_ne_nil {a : α} {l : List α} (h : l ≠ []) :
    (a :: l).getLast? = l.getLast? := by
  cases l with
  | nil => exact absurd rfl h
  | cons b t => exact List.getLast?_cons_cons

theorem statusIterGo_yields (interval : Option Nat) (n : Nat) (items : List α) :
    yieldsOf (statusIterGo interval n items) = items := by
  induction items generalizing n with
  | nil => simp [statusIterGo, yieldsOf]
  | cons a rest ih =>
    by_cases h : (pyTruthy interval && (n + 1) % interval.getD 0 == 0) = true <;>
      simp [statusIterGo, h, ih (n + 1)]

theorem statusIterGo_dones (interval : Option Nat) (n : Nat) (items : List α) :
    donesOf (statusIterGo interval n items) = [n + items.length] := by
  induction items generalizing n with
  | nil => simp [statusIterGo, donesOf]
  | cons a rest ih =>
    have hlen : n + 1 + rest.length = n + (a :: rest).length := by
      simp; omega
    by_cases h : (pyTruthy interval && (n + 1) % interval.getD 0 == 0) = true <;>
      simp [statusIterGo, h, ih (n + 1), hlen]

theorem statusIterGo_ne_nil (interval : Option Nat) (n : Nat) (items : List α) :
    statusIterGo interval n items ≠ [] := by
  intro hcon
  have := statusIterGo_dones interval n items
  rw [hcon] at this
  simp at this

theorem statusIterGo_getLast (interval : Option Nat) (n : Nat) (items : List α) :
    (statusIterGo interval n items).getLast? =
      some (.done (n + items.length)) := by
  induction items generalizing n with
  | nil => simp [statusIterGo]
  | cons a rest ih =>
    have hne := statusIterGo_ne_nil interval (n + 1) rest
    have hstep : (StatusEvent.yield a :: statusIterGo interval (n + 1) rest).getLast?
        = some (StatusEvent.done (n + (a :: rest).length)) := by
      rw [getLastQ_cons_of_ne_nil hne, ih (n + 1)]
      congr 2
      simp; omega
    by_cases h : (pyTruthy interval && (n + 1) % interval.getD 0 == 0) = true
    · simp only [statusIterGo, h, if_true, List.singleton_append]
      rw [getLastQ_cons_of_ne_nil (by simp), hstep]
    · simp only [statusIterGo, h, if_false, List.nil_append]
      exact hstep

theorem statusIterGo_periodics_falsy (interval : Option Nat)
    (hfalsy : pyTruthy interval = false) (n : Nat) (items : List α) :
    periodicsOf (statusIterGo interval n items) = [] := by
  induction items generalizing n with
  | nil => simp [statusIterGo, periodicsOf]
  | cons a rest ih =>
    simp [statusIterGo, hfalsy, ih (n + 1)]

theorem statusIterGo_periodics_truthy (i : Nat) (hi : i ≠ 0) (n : Nat)
    (items : List α) :
    periodicsOf (statusIterGo (some i) n items) =
      (List.range' (n + 1) items.length).filter (fun m => m % i == 0) := by
  induction items generalizing n with
  | nil => simp [statusIterGo, periodicsOf]
  | cons a rest ih =>
    have htr : pyTruthy (some i) = true := by simp [pyTruthy, hi]
    simp only [statusIterGo, List.length_cons, List.range'_succ, List.filter_cons]
    by_cases h : (n + 1) % i = 0
    · have hb : (pyTruthy (some i) && (n + 1) % (some i : Option Nat).getD 0 == 0) = true := by
        simp [htr, h]
      rw [if_pos hb]
      simp [h, ih (n + 1)]
    · have hb : ¬ ((pyTruthy (some i) && (n + 1) % (some i : Option Nat).getD 0 == 0) = true) := by
        simp [htr, h]
      rw [if_neg hb]
      simp [h, ih (n + 1)]

/-- Number of multiples of `i` among the 1-based indices `1..L`: the
count of periodic messages over `L` items is `⌊L / i⌋`. -/
theorem filter_multiples_length (i : Nat) (_hi : i ≠ 0) (L : Nat) :
    ((List.range' 1 L).filter (fun m => m % i == 0)).length = L / i := by
  induction L with
  | zero => simp
  | succ L ih =>
    rw [List.range'_1_concat, List.filter_append, List.length_append, ih]
    by_cases h : (1 + L) % i = 0
    · have hdvd : i ∣ L + 1 := Nat.dvd_of_mod_eq_zero (by rw [Nat.add_comm] at h; exact h)
      rw [Nat.succ_div_of_dvd hdvd]
      simp [h]
    · have hdvd : ¬ i ∣ L + 1 := by
        intro hc
        rw [Nat.add_comm] at h
        exact h (Nat.mod_eq_zero_of_dvd hc)
      rw [Nat.succ_div_of_not_dvd hdvd]
      simp [h]

/-- C4: for every finite input sequence and every configured report
interval, `Worker.status_iter` passes every item through unchanged,
emits exactly one final notification carrying the total count (also when
the sequence is empty, where the count is `0`) as the last event, and
emits the periodic notifications exactly at the 1-based indices
divisible by the interval — hence exactly `⌊total / interval⌋` of them —
while a zero or absent interval yields no periodic notification at
all. -/
theorem status_iter_spec (interval : Option Nat) (items : List α) :
    yieldsOf (status_iter interval items) = items ∧
    donesOf (status_iter interval items) = [items.length] ∧
    (status_iter interval items).getLast? = some (.done items.length) ∧
    periodicsOf (status_iter interval items)
      = (if pyTruthy interval
         then (List.range' 1 items.length).filter (fun m => m % interval.getD 0 == 0)
         else []) ∧
    (periodicsOf (status_iter interval items)).length
      = (if pyTruthy interval then items.length / interval.getD 0 else 0) := by
  have hper : periodicsOf (status_iter interval items)
      = (if pyTruthy interval
         then (List.range' 1 items.length).filter (fun m => m % interval.getD 0 == 0)
         else []) := by
    by_cases htr : pyTruthy interval = true
    · match interval, htr with
      | some i, htr =>
        have hi : i ≠ 0 := by simpa [pyTruthy] using htr
        rw [if_pos htr]
        simpa using statusIterGo_periodics_truthy i hi 0 items
    · rw [if_neg htr]
      exact statusIterGo_periodics_falsy interval (by simpa using htr) 0 items
  refine ⟨by simpa using statusIterGo_yields interval 0 items,
          by simpa using statusIterGo_dones interval 0 items,
          by simpa using statusIterGo_getLast interval 0 items,
          hper, ?_⟩
  rw [hper]
  by_cases htr : pyTruthy interval = true
  · match interval, htr with
    | some i, htr =>
      have hi : i ≠ 0 := by simpa [pyTruthy] using htr
      rw [if_pos htr, if_pos htr]
      exact filter_multiples_length i hi items.length
  · rw [if_neg htr, if_neg htr]
    simp

/-! ## Stream Chain teardown: `ClassicFile.close` (worker.py lines 350-353)

```
def close(self):
    for fd in reversed(self.fds):
        if hasattr(fd, 'close'):
            fd.close()
```

A produced handle is embedded as a flag saying whether it supports
`close` (`hasattr(fd, 'close')`) together with the outcome of calling
`close()` on it: `none` for normal return, `some e` for an exception
`e`.  The embedding of the method returns the construction-order indices
of the handles whose `close` was invoked, in invocation order, paired
with the exception that escaped the loop, if any: a raised exception
aborts the `for` loop (there is no handler in the source), so no earlier
handle is closed after one raises. -/

structure Handle (ε : Type) where
  hasClose : Bool
  closeErr : Option ε
deriving DecidableEq, Repr

/-- Loop of `ClassicFile.close` over an indexed handle list (already
reversed by the caller). -/
def closeGo {ε} : List (Nat × Handle ε) → List Nat × Option ε
  | [] => ([], none)
  | (i, h) :: rest =>
      if h.hasClose then
        match h.closeErr with
        | some e => ([i], some e)
        | none =>
            let r := closeGo rest
            (i :: r.1, r.2)
      else closeGo rest

/-- `ClassicFile.close`: iterate over `reversed(self.fds)` and call
`close` on every handle that has one, until an exception escapes. -/
def ClassicFile.close {ε} (fds : List (Handle ε)) : List Nat × Option ε :=
  closeGo fds.enum.reverse

/-- Construction-order indices of the handles supporting `close`, in
reverse construction order: the teardown order the spec promises. -/
def closablesReversed {ε} (fds : List (Handle ε)) : List Nat :=
  ((fds.enum.filter (fun p => p.2.hasClose)).map Prod.fst).reverse

/-- A three-stage chain S1→S2→S3 where every handle supports `close` and
S2's `close` raises. -/
def c2fds : List (Handle Nat) :=
  [⟨true, none⟩, ⟨true, some 7⟩, ⟨true, none⟩]

/-- C2 counterexample: with chain `c2fds` (S1→S2→S3, S2's close
raises), `ClassicFile.close` invokes S3.close then S2.close and then
aborts, so the closed set is not the full reverse of construction order:
S1.close is never attempted, refuting the claim that reverse-order
teardown happens regardless of errors raised by later stages. -/
theorem classicFile_close_not_error_tolerant :
    ClassicFile.close c2fds ≠ (closablesReversed c2fds, some 7) ∧
    ClassicFile.close c2fds = ([2, 1], some 7) ∧
    closablesReversed c2fds = [2, 1, 0] := by
  refine ⟨?_, by decide, by decide⟩
  decide

theorem closeGo_all_ok {ε} (l : List (Nat × Handle ε))
    (hok : ∀ p ∈ l, p.2.hasClose = true → p.2.closeErr = none) :
    closeGo l = ((l.filter (fun p => p.2.hasClose)).map Prod.fst, none) := by
  induction l with
  | nil => simp [closeGo]
  | cons p rest ih =>
    obtain ⟨i, h⟩ := p
    have hrest : ∀ q ∈ rest, q.2.hasClose = true → q.2.closeErr = none := by
      intro q hq
      exact hok q (List.mem_cons_of_mem _ hq)
    by_cases hc : h.hasClose = true
    · have herr : h.closeErr = none := hok (i, h) (List.mem_cons_self _ _) hc
      simp [closeGo, hc, herr, ih hrest, List.filter_cons]
    · simp only [Bool.not_eq_true] at hc
      simp [closeGo, hc, ih hrest, List.filter_cons]

theorem closeGo_isPrefix {ε} (l : List (Nat × Handle ε)) :
    List.IsPrefix (closeGo l).1 ((l.filter (fun p => p.2.hasClose)).map Prod.fst) := by
  induction l with
  | nil => simp [closeGo]
  | cons p rest ih =>
    obtain ⟨i, h⟩ := p
    by_cases hc : h.hasClose = true
    · cases herr : h.closeErr with
      | some e =>
        simp only [closeGo, hc, if_true, herr, List.filter_cons,
          List.map_cons]
        exact ⟨((rest.filter (fun p => p.2.hasClose)).map Prod.fst), by simp⟩
      | none =>
        simp only [closeGo, hc, if_true, herr, List.filter_cons, List.map_cons]
        exact (List.prefix_cons_inj i).mpr ih
    · simp only [Bool.not_eq_true] at hc
      simp only [closeGo, hc, Bool.false_eq_true, if_false, List.filter_cons]
      simpa [hc] using ih

theorem closeGo_none_eq {ε} (l : List (Nat × Handle ε))
    (hnone : (closeGo l).2 = none) :
    (closeGo l).1 = (l.filter (fun p => p.2.hasClose)).map Prod.fst := by
  induction l with
  | nil => simp [closeGo]
  | cons p rest ih =>
    obtain ⟨i, h⟩ := p
    by_cases hc : h.hasClose = true
    · cases herr : h.closeErr with
      | some e => simp [closeGo, hc, herr] at hnone
      | none =>
        simp only [closeGo, hc, if_true, herr] at hnone ⊢
        simp [List.filter_cons, hc, ih hnone]
    · simp only [Bool.not_eq_true] at hc
      simp only [closeGo, hc, Bool.false_eq_true, if_false] at hnone ⊢
      simp [List.filter_cons, hc, ih hnone]

theorem closeGo_error_last {ε} (l : List (Nat × Handle ε)) (e : ε)
    (herr : (closeGo l).2 = some e) :
    ∃ i h, (closeGo l).1.getLast? = some i ∧ (i, h) ∈ l ∧
      h.closeErr = some e := by
  induction l with
  | nil => simp [closeGo] at herr
  | cons p rest ih =>
    obtain ⟨i, h⟩ := p
    by_cases hc : h.hasClose = true
    · cases hce : h.closeErr with
      | some e2 =>
        have hval : closeGo ((i, h) :: rest) = ([i], some e2) := by
          simp [closeGo, hc, hce]
        rw [hval] at herr
        simp only at herr
        refine ⟨i, h, by rw [hval]; simp, List.mem_cons_self _ _, ?_⟩
        rw [hce]
        exact herr
      | none =>
        have hval : closeGo ((i, h) :: rest)
            = (i :: (closeGo rest).1, (closeGo rest).2) := by
          simp [closeGo, hc, hce]
        rw [hval] at herr
        simp only at herr
        obtain ⟨j, h2, hlast, hmem, hth⟩ := ih herr
        have hne : (closeGo rest).1 ≠ [] := by
          intro hcon
          rw [hcon] at hlast
          simp at hlast
        refine ⟨j, h2, ?_, List.mem_cons_of_mem _ hmem, hth⟩
        rw [hval]
        simpa [getLastQ_cons_of_ne_nil hne] using hlast
    · simp only [Bool.not_eq_true] at hc
      have hval : closeGo ((i, h) :: rest) = closeGo rest := by
        simp [closeGo, hc]
      rw [hval] at herr
      obtain ⟨j, h2, hlast, hmem, hth⟩ := ih herr
      exact ⟨j, h2, by rw [hval]; exact hlast, List.mem_cons_of_mem _ hmem, hth⟩

/-- C2 (amended): `ClassicFile.close` closes handles in exact reverse
construction order, skipping handles without a `close` operation, but
stops at the first close that raises: when no close raises, every
closable handle is closed in exact reverse order with no error; in
general the closed handles form an initial segment of that reverse
order, and a propagated error is the one raised by the last handle whose
close was attempted. -/
theorem classicFile_close_spec {ε} (fds : List (Handle ε)) :
    ((∀ h ∈ fds, h.hasClose = true → h.closeErr = none) →
       ClassicFile.close fds = (closablesReversed fds, none)) ∧
    List.IsPrefix (ClassicFile.close fds).1 (closablesReversed fds) ∧
    ((ClassicFile.close fds).2 = none →
       (ClassicFile.close fds).1 = closablesReversed fds) ∧
    (∀ e, (ClassicFile.close fds).2 = some e →
       ∃ i h, (ClassicFile.close fds).1.getLast? = some i ∧
         fds[i]? = some h ∧ h.closeErr = some e) := by
  have hrev : closablesReversed fds
      = (fds.enum.reverse.filter (fun p => p.2.hasClose)).map Prod.fst := by
    simp [closablesReversed]
  refine ⟨?_, ?_, ?_, ?_⟩
  · intro hok
    rw [ClassicFile.close, hrev]
    apply closeGo_all_ok
    intro p hp
    have : p.2 ∈ fds := by
      have h1 : p ∈ fds.enum := List.mem_reverse.mp hp
      exact List.snd_mem_of_mem_enum h1
    exact hok p.2 this
  · rw [ClassicFile.close, hrev]
    exact closeGo_isPrefix _
  · intro hnone
    rw [ClassicFile.close, hrev] at *
    exact closeGo_none_eq _ hnone
  · intro e herr
    rw [ClassicFile.close] at *
    obtain ⟨i, h, hlast, hmem, hth⟩ := closeGo_error_last _ e herr
    refine ⟨i, h, hlast, ?_, hth⟩
    have : (i, h) ∈ fds.enum := List.mem_reverse.mp hmem
    exact (List.mk_mem_enum_iff_getElem?).mp this

/-- Concrete application of `classicFile_close_spec`: a chain where S2
has no `close` and nothing raises closes exactly S3 then S1. -/
theorem classicFile_close_spec_witness :
    ((∀ h ∈ [(⟨true, none⟩ : Handle Nat), ⟨false, none⟩, ⟨true, none⟩],
        h.hasClose = true → h.closeErr = none) →
      ClassicFile.close [(⟨true, none⟩ : Handle Nat), ⟨false, none⟩, ⟨true, none⟩]
        = (closablesReversed [(⟨true, none⟩ : Handle Nat), ⟨false, none⟩, ⟨true, none⟩], none)) ∧
    ClassicFile.close [(⟨true, none⟩ : Handle Nat), ⟨false, none⟩, ⟨true, none⟩]
      = ([2, 0], none) :=
  ⟨(classicFile_close_spec _).1,
   by
    have := (classicFile_close_spec
      [(⟨true, none⟩ : Handle Nat), ⟨false, none⟩, ⟨true, none⟩]).1 (by decide)
    rw [this]
    decide⟩

/-! ## Task Orchestrator teardown: `Worker.run` (worker.py lines 231-254)

The tail of `Worker.run` is

```
getattr(self, task.mode)(task, params)
external.close()
```

preceded by `assert self['version'] == ... , "Python version mismatch"`.
There is no `try`/`finally`: the dispatched pipeline call and
`external.close()` are straight-line statements.  The embedding records
the version check, the pipeline outcome (user errors raised by
map/reduce/combine/partition/init functions surface here), and whether
`external.close()` was reached; its result pairs that teardown flag
with the outcome propagated to the caller. -/

inductive RunError (ε : Type) where
  | assertionError
  | userError (e : ε)
deriving DecidableEq, Repr

structure RunBehavior (ε α : Type) where
  versionMatch : Bool
  pipeline : Except ε α

/-- `Worker.run`: version assert, then pipeline dispatch, then
`external.close()`.  The first component reports whether
`external.close()` executed. -/
def Worker.run {ε α} (b : RunBehavior ε α) : Bool × Except (RunError ε) α :=
  if b.versionMatch = false then (false, .error .assertionError)
  else
    match b.pipeline with
    | .error e => (false, .error (.userError e))
    | .ok a => (true, .ok a)

/-- A run whose version matches but whose pipeline raises a user
error. -/
def c5ex : RunBehavior Unit Unit := ⟨true, .error ()⟩

/-- C5 counterexample: with a matching version and a pipeline that
raises a user error, `Worker.run` propagates the error but never reaches
`external.close()` — external-program resources are not released on
this outcome, refuting teardown-on-every-outcome. -/
theorem worker_run_no_teardown_on_error :
    c5ex.versionMatch = true ∧ (Worker.run c5ex).1 = false ∧
    Worker.run c5ex = (false, .error (.userError ())) :=
  ⟨rfl, rfl, rfl⟩

/-- C5 (amended): any error raised by the dispatched pipeline (i.e. by
user-supplied map/reduce/combine/partition/init functions) propagates
unmodified to the caller, but external-program resources are released
only when the pipeline completes successfully: `external.close()` is
not reached on the error path. -/
theorem worker_run_spec {ε α} (b : RunBehavior ε α)
    (hv : b.versionMatch = true) :
    (∀ e, b.pipeline = .error e →
       Worker.run b = (false, .error (.userError e))) ∧
    (∀ a, b.pipeline = .ok a → Worker.run b = (true, .ok a)) ∧
    ((Worker.run b).1 = true ↔ ∃ a, b.pipeline = .ok a) := by
  refine ⟨?_, ?_, ?_⟩
  · intro e he
    simp [Worker.run, hv, he]
  · intro a ha
    simp [Worker.run, hv, ha]
  · cases hp : b.pipeline with
    | error e => simp [Worker.run, hv, hp]
    | ok a => simp [Worker.run, hv, hp]

/-- A run with matching version and successful pipeline. -/
def c5good : RunBehavior Unit Nat := ⟨true, .ok 5⟩

/-- Concrete application of `worker_run_spec` to a successful pipeline:
teardown runs and the result is returned. -/
theorem worker_run_spec_witness :
    (∀ e, c5good.pipeline = .error e →
       Worker.run c5good = (false, .error (.userError e))) ∧
    (∀ a, c5good.pipeline = .ok a → Worker.run c5good = (true, .ok a)) ∧
    ((Worker.run c5good).1 = true ↔ ∃ a, c5good.pipeline = .ok a) :=
  worker_run_spec c5good rfl

/-! ## Reduce variant dispatch: `Worker.reduce` (worker.py lines 296-300)

```
if util.argcount(self['reduce']) < 3:
    for record in self['reduce'](entries, *(params, )):
        output.add(*record)
else:
    self['reduce'](entries, output, params)
```

A configured reduce function is embedded as its declared positional
parameter count plus the two possible behaviors: `call2` is the
records the 2-argument form `reduce(entries, params)` returns, and
`call3` is the ordered sequence of records the 3-argument form
`reduce(entries, output, params)` adds to the sink itself.  Sink writes
are tagged by who issued the `add`: the pipeline's own loop
(`pipelineAdd`) or the user function (`userAdd`). -/

inductive SinkWrite (κ ν : Type) where
  | pipelineAdd (key : κ) (val : ν)
  | userAdd (key : κ) (val : ν)
deriving DecidableEq, Repr

structure ReduceFn (κ ν κ₂ ν₂ π : Type) where
  argcount : Nat
  call2 : List (κ × ν) → π → List (κ₂ × ν₂)
  call3 : List (κ × ν) → π → List (κ₂ × ν₂)

/-- The dispatch at the end of `Worker.reduce`: the transcript of writes
arriving at the single output sink. -/
def reduceDispatch (f : ReduceFn κ ν κ₂ ν₂ π) (entries : List (κ × ν))
    (params : π) : List (SinkWrite κ₂ ν₂) :=
  if f.argcount < 3 then
    (f.call2 entries params).map (fun r => .pipelineAdd r.1 r.2)
  else
    (f.call3 entries params).map (fun r => .userAdd r.1 r.2)

/-- Records written to the sink by the pipeline's own loop, in order. -/
def pipelineWritesOf (ws : List (SinkWrite κ₂ ν₂)) : List (κ₂ × ν₂) :=
  ws.filterMap fun w => match w with
    | .pipelineAdd k v => some (k, v)
    | _ => none

/-- Records written to the sink by the user function itself, in order. -/
def userWritesOf (ws : List (SinkWrite κ₂ ν₂)) : List (κ₂ × ν₂) :=
  ws.filterMap fun w => match w with
    | .userAdd k v => some (k, v)
    | _ => none

theorem pipelineWritesOf_map_pipeline (l : List (κ₂ × ν₂)) :
    pipelineWritesOf (l.map (fun r => SinkWrite.pipelineAdd r.1 r.2)) = l := by
  induction l with
  | nil => rfl
  | cons r rest ih => simp [pipelineWritesOf, List.filterMap_cons] at ih ⊢; exact ih

theorem userWritesOf_map_pipeline (l : List (κ₂ × ν₂)) :
    userWritesOf (l.map (fun r => SinkWrite.pipelineAdd r.1 r.2)) = [] := by
  induction l with
  | nil => rfl
  | cons r rest ih => simp [userWritesOf, List.filterMap_cons, ih]

theorem userWritesOf_map_user (l : List (κ₂ × ν₂)) :
    userWritesOf (l.map (fun r => SinkWrite.userAdd r.1 r.2)) = l := by
  induction l with
  | nil => rfl
  | cons r rest ih => simp [userWritesOf, List.filterMap_cons] at ih ⊢; exact ih

theorem pipelineWritesOf_map_user (l : List (κ₂ × ν₂)) :
    pipelineWritesOf (l.map (fun r => SinkWrite.userAdd r.1 r.2)) = [] := by
  induction l with
  | nil => rfl
  | cons r rest ih => simp [pipelineWritesOf, List.filterMap_cons, ih]

/-- C3: the reduce pipeline dispatches on the declared parameter count
of the configured reduce function.  With 2 declared parameters it calls
`reduce(entries, params)` and itself writes each returned record to the
single output sink via `add` (the user function writes nothing); with 3
declared parameters it calls `reduce(entries, output, params)` and the
pipeline writes nothing to the sink — only the function's own `add`
calls reach it. -/
theorem reduce_variant_dispatch (f : ReduceFn κ ν κ₂ ν₂ π)
    (entries : List (κ × ν)) (params : π) :
    (f.argcount = 2 →
       pipelineWritesOf (reduceDispatch f entries params) = f.call2 entries params ∧
       userWritesOf (reduceDispatch f entries params) = []) ∧
    (f.argcount = 3 →
       userWritesOf (reduceDispatch f entries params) = f.call3 entries params ∧
       pipelineWritesOf (reduceDispatch f entries params) = []) := by
  constructor
  · intro h2
    have hlt : f.argcount < 3 := by omega
    rw [reduceDispatch, if_pos hlt]
    exact ⟨pipelineWritesOf_map_pipeline _, userWritesOf_map_pipeline _⟩
  · intro h3
    have hlt : ¬ f.argcount < 3 := by omega
    rw [reduceDispatch, if_neg hlt]
    exact ⟨userWritesOf_map_user _, pipelineWritesOf_map_user _⟩

/-- A 2-parameter reduce function summing values per call, used to apply
`reduce_variant_dispatch` concretely. -/
def c3fn : ReduceFn Nat Nat Nat Nat Unit :=
  { argcount := 2
    call2 := fun entries _ => [(0, (entries.map Prod.snd).sum)]
    call3 := fun entries _ => entries }

/-- Concrete application of `reduce_variant_dispatch`: the 2-parameter
variant's returned records are written by the pipeline, and no user
write reaches the sink. -/
theorem reduce_variant_dispatch_witness :
    c3fn.argcount = 2 ∧
    pipelineWritesOf (reduceDispatch c3fn [(1, 10), (2, 20)] ())
      = c3fn.call2 [(1, 10), (2, 20)] () ∧
    userWritesOf (reduceDispatch c3fn [(1, 10), (2, 20)] ()) = [] :=
  ⟨rfl, (reduce_variant_dispatch c3fn [(1, 10), (2, 20)] ()).1 rfl⟩

/-! ## Map Pipeline and Partition/Combine Stage: `Worker.map`
(worker.py lines 256-279)

```
def map(self, task, params):
    if self['save'] and self['partitions'] and not self['reduce']:
        raise NotImplementedError("Storing partitioned outputs in DDFS is not yet supported")
    ...
    bufs = {}
    ...
    for entry in entries:
        for key, val in self['map'](entry, params):
            part = None
            if self['partitions']:
                part = str(self['partition'](key, self['partitions'], params))
            if self['combiner']:
                if part not in bufs:
                    bufs[part] = {}
                for record in self['combiner'](key, val, bufs[part], False, params) or ():
                    output(part).add(*record)
            else:
                output(part).add(key, val)
    for part, buf in bufs.items():
        for record in self['combiner'](None, None, buf, True, params) or ():
            output(part).add(*record)
```

Embedding choices: `bufs` is an association list in insertion order
(first-touch order of partitions); a combiner call mutating its buffer
in place and returning records (or `None`, handled by `or ()`) becomes a
function returning the new buffer and the (possibly empty) record list;
the partition identifier is `Option String`, `none` standing for the
Python `None` of the unpartitioned case and `some (toString p)` for
`str(partition(...))`.  The run is observed through a transcript of
events: one `partCall` per invocation of `self['partition']`, one
`combineCall` per invocation of `self['combiner']` (carrying the
arguments it received), and one `add` per `output(part).add(...)`. -/

inductive MapEvent (κ ν β π : Type) where
  | partCall (key : κ) (count : Nat)
  | combineCall (part : Option String) (key : Option κ) (val : Option ν)
      (buf : β) (final : Bool) (params : π)
  | add (part : Option String) (key : κ) (val : ν)
deriving DecidableEq, Repr

structure MapConfig (ε κ ν β π : Type) where
  save : Bool
  hasReduce : Bool
  partitions : Option Nat
  partition : κ → Nat → π → Nat
  combiner : Option (Option κ → Option ν → β → Bool → π → β × List (κ × ν))
  emptyBuf : β
  map : ε → π → List (κ × ν)
  params : π

/-- `part = None; if self['partitions']: part = str(self['partition'](key,
self['partitions'], params))` — the computed partition identifier plus
the partition-function invocation event, if any. -/
def partOf (cfg : MapConfig ε κ ν β π) (key : κ) :
    Option String × List (MapEvent κ ν β π) :=
  match cfg.partitions, pyTruthy cfg.partitions with
  | some n, true => (some (toString (cfg.partition key n cfg.params)), [.partCall key n])
  | _, _ => (none, [])

/-- `bufs[part]` lookup. -/
def bufLookup (st : List (Option String × β)) (p : Option String) : Option β :=
  (st.find? (fun e => e.1 = p)).map Prod.snd

/-- In-place rebinding `bufs[part] = buf` for an existing key. -/
def bufUpdate (st : List (Option String × β)) (p : Option String) (b : β) :
    List (Option String × β) :=
  st.map (fun e => if e.1 = p then (p, b) else e)

/-- Body of the inner `for key, val in self['map'](entry, params)` loop:
one mapped record is routed through the Partition/Combine Stage,
returning the updated `bufs` and the events of this iteration. -/
def mapRecord (cfg : MapConfig ε κ ν β π) (st : List (Option String × β))
    (kv : κ × ν) : List (Option String × β) × List (MapEvent κ ν β π) :=
  let pe := partOf cfg kv.1
  match cfg.combiner with
  | some comb =>
      let stb : List (Option String × β) × β :=
        match bufLookup st pe.1 with
        | some b => (st, b)
        | none => (st ++ [(pe.1, cfg.emptyBuf)], cfg.emptyBuf)
      let br := comb (some kv.1) (some kv.2) stb.2 false cfg.params
      (bufUpdate stb.1 pe.1 br.1,
       pe.2 ++ MapEvent.combineCall pe.1 (some kv.1) (some kv.2) stb.2 false cfg.params
         :: br.2.map (fun r => MapEvent.add pe.1 r.1 r.2))
  | none => (st, pe.2 ++ [MapEvent.add pe.1 kv.1 kv.2])

/-- Fold of `mapRecord` over a record list. -/
def mapRecords (cfg : MapConfig ε κ ν β π) (st : List (Option String × β)) :
    List (κ × ν) → List (Option String × β) × List (MapEvent κ ν β π)
  | [] => (st, [])
  | kv :: rest =>
      let r := mapRecord cfg st kv
      let r2 := mapRecords cfg r.1 rest
      (r2.1, r.2 ++ r2.2)

/-- The outer `for entry in entries` loop: each entry's mapped records
are routed in order. -/
def mapEntries (cfg : MapConfig ε κ ν β π) (st : List (Option String × β)) :
    List ε → List (Option String × β) × List (MapEvent κ ν β π)
  | [] => (st, [])
  | e :: rest =>
      let r := mapRecords cfg st (cfg.map e cfg.params)
      let r2 := mapEntries cfg r.1 rest
      (r2.1, r.2 ++ r2.2)

/-- The end-of-input flush loop `for part, buf in bufs.items(): for
record in self['combiner'](None, None, buf, True, params) or (): ...`. -/
def mapFlush (comb : Option κ → Option ν → β → Bool → π → β × List (κ × ν))
    (params : π) (st : List (Option String × β)) : List (MapEvent κ ν β π) :=
  st.flatMap fun pb =>
    MapEvent.combineCall pb.1 none none pb.2 true params
      :: ((comb none none pb.2 true params).2.map (fun r => MapEvent.add pb.1 r.1 r.2))

inductive DiscoError where
  | notImplementedError
deriving DecidableEq, Repr

/-- `Worker.map`: the configuration check, then input processing, then
the flush loop.  The result is the full event transcript, or the
`NotImplementedError` raised before any input is consumed. -/
def Worker.map (cfg : MapConfig ε κ ν β π) (entries : List ε) :
    Except DiscoError (List (MapEvent κ ν β π)) :=
  if cfg.save && pyTruthy cfg.partitions && !cfg.hasReduce then
    .error .notImplementedError
  else
    let r := mapEntries cfg [] entries
    .ok (r.2 ++ match cfg.combiner with
      | some comb => mapFlush comb cfg.params r.1
      | none => [])

/-- C6: a map-mode configuration requesting persistent (`save`)
partitioned storage output without a following reduce phase fails fast
with the configuration error before any input entry is consumed — the
same error for every input sequence — and for every configuration
without that combination the error is never raised. -/
theorem map_save_fail_fast (cfg : MapConfig ε κ ν β π) :
    ((cfg.save && pyTruthy cfg.partitions && !cfg.hasReduce) = true →
       ∀ entries : List ε,
         Worker.map cfg entries = .error .notImplementedError) ∧
    ((cfg.save && pyTruthy cfg.partitions && !cfg.hasReduce) = false →
       ∀ entries : List ε, ∃ evs, Worker.map cfg entries = .ok evs) := by
  constructor
  · intro hbad entries
    rw [Worker.map, if_pos hbad]
  · intro hgood entries
    rw [Worker.map, if_neg (by simp [hgood])]
    exact ⟨_, rfl⟩

/-- A configuration requesting `save` with partitions and no reduce. -/
def c6bad : MapConfig Nat Nat Nat Nat Unit :=
  { save := true
    hasReduce := false
    partitions := some 2
    partition := fun k n _ => k % n
    combiner := none
    emptyBuf := 0
    map := fun e _ => [(e, e)]
    params := () }

/-- The same configuration with a reduce phase configured. -/
def c6good : MapConfig Nat Nat Nat Nat Unit :=
  { c6bad with hasReduce := true }

/-- Concrete application of `map_save_fail_fast`: the bad combination
errors on two different inputs (before reading them), and adding a
reduce phase removes the error. -/
theorem map_save_fail_fast_witness :
    ((c6bad.save && pyTruthy c6bad.partitions && !c6bad.hasReduce) = true ∧
      Worker.map c6bad [1, 2, 3] = .error .notImplementedError ∧
      Worker.map c6bad [] = .error .notImplementedError) ∧
    ((c6good.save && pyTruthy c6good.partitions && !c6good.hasReduce) = false ∧
      ∃ evs, Worker.map c6good [1, 2, 3] = .ok evs) :=
  ⟨⟨rfl, (map_save_fail_fast c6bad).1 rfl [1, 2, 3],
       (map_save_fail_fast c6bad).1 rfl []⟩,
   ⟨rfl, (map_save_fail_fast c6good).2 rfl [1, 2, 3]⟩⟩

/-! ### C10: a falsy partition count behaves exactly like an absent one -/

/-- An event shows no partitioning activity: it is not a partition
function invocation, and any partition identifier it carries is the
unpartitioned `None`. -/
def noPartitioning : MapEvent κ ν β π → Bool
  | .partCall _ _ => false
  | .combineCall p _ _ _ _ _ => p == none
  | .add p _ _ => p == none

theorem partOf_falsy (cfg : MapConfig ε κ ν β π)
    (hfalsy : pyTruthy cfg.partitions = false) (key : κ) :
    partOf cfg key = (none, []) := by
  rw [partOf]
  cases hp : cfg.partitions with
  | none => rfl
  | some n =>
    rw [hp] at hfalsy
    rw [hfalsy]

theorem mapRecord_falsy_eq (cfg : MapConfig ε κ ν β π)
    (g : κ → Nat → π → Nat)
    (hfalsy : pyTruthy cfg.partitions = false)
    (st : List (Option String × β)) (kv : κ × ν) :
    mapRecord cfg st kv
      = mapRecord { cfg with partitions := none, partition := g } st kv := by
  have h2 : pyTruthy ({ cfg with partitions := none, partition := g } :
      MapConfig ε κ ν β π).partitions = false := rfl
  rw [mapRecord, mapRecord, partOf_falsy cfg hfalsy,
    partOf_falsy _ h2]

theorem mapRecords_falsy_eq (cfg : MapConfig ε κ ν β π)
    (g : κ → Nat → π → Nat)
    (hfalsy : pyTruthy cfg.partitions = false)
    (st : List (Option String × β)) (rs : List (κ × ν)) :
    mapRecords cfg st rs
      = mapRecords { cfg with partitions := none, partition := g } st rs := by
  induction rs generalizing st with
  | nil => rfl
  | cons kv rest ih =>
    rw [mapRecords, mapRecords, mapRecord_falsy_eq cfg g hfalsy st kv, ih]

theorem mapEntries_falsy_eq (cfg : MapConfig ε κ ν β π)
    (g : κ → Nat → π → Nat)
    (hfalsy : pyTruthy cfg.partitions = false)
    (st : List (Option String × β)) (es : List ε) :
    mapEntries cfg st es
      = mapEntries { cfg with partitions := none, partition := g } st es := by
  induction es generalizing st with
  | nil => rfl
  | cons e rest ih =>
    rw [mapEntries, mapEntries, mapRecords_falsy_eq cfg g hfalsy st, ih]

/-- All buffer keys are the unpartitioned identifier. -/
def allKeysNone (st : List (Option String × β)) : Bool :=
  st.all fun pb => pb.1 == none

theorem adds_noPart (l : List (κ × ν)) :
    (l.map fun r => (MapEvent.add none r.1 r.2 : MapEvent κ ν β π)).all
      noPartitioning = true := by
  induction l with
  | nil => rfl
  | cons r rest ih =>
    simp only [List.map_cons, List.all_cons, Bool.and_eq_true]
    exact ⟨by simp [noPartitioning], ih⟩

theorem mapRecord_falsy_noPart (cfg : MapConfig ε κ ν β π)
    (hfalsy : pyTruthy cfg.partitions = false)
    (st : List (Option String × β)) (hst : allKeysNone st = true)
    (kv : κ × ν) :
    allKeysNone (mapRecord cfg st kv).1 = true ∧
    (mapRecord cfg st kv).2.all noPartitioning = true := by
  rw [mapRecord, partOf_falsy cfg hfalsy]
  cases hcomb : cfg.combiner with
  | none => exact ⟨hst, by simp [noPartitioning]⟩
  | some comb =>
    simp only
    constructor
    · cases hlk : bufLookup st none with
      | some b =>
        simp only [hlk]
        simp only [allKeysNone, bufUpdate, List.all_map, List.all_eq_true] at hst ⊢
        intro pb hpb
        by_cases hk : pb.1 = none <;> simp [hk, hst pb hpb]
      | none =>
        simp only [hlk]
        simp only [allKeysNone, bufUpdate, List.all_map, List.all_eq_true,
          List.mem_append] at hst ⊢
        intro pb hpb
        rcases hpb with hpb | hpb
        · by_cases hk : pb.1 = none <;> simp [hk, hst pb hpb]
        · simp at hpb
          simp [hpb]
    · cases hlk : bufLookup st none <;>
        simp [hlk, noPartitioning, adds_noPart]

theorem mapRecords_falsy_noPart (cfg : MapConfig ε κ ν β π)
    (hfalsy : pyTruthy cfg.partitions = false)
    (st : List (Option String × β)) (hst : allKeysNone st = true)
    (rs : List (κ × ν)) :
    allKeysNone (mapRecords cfg st rs).1 = true ∧
    (mapRecords cfg st rs).2.all noPartitioning = true := by
  induction rs generalizing st with
  | nil => exact ⟨hst, by simp [mapRecords]⟩
  | cons kv rest ih =>
    obtain ⟨h1, h2⟩ := mapRecord_falsy_noPart cfg hfalsy st hst kv
    obtain ⟨h3, h4⟩ := ih (mapRecord cfg st kv).1 h1
    refine ⟨h3, ?_⟩
    rw [mapRecords]
    simp only [List.all_append]
    rw [h2, h4]
    rfl

theorem mapEntries_falsy_noPart (cfg : MapConfig ε κ ν β π)
    (hfalsy : pyTruthy cfg.partitions = false)
    (st : List (Option String × β)) (hst : allKeysNone st = true)
    (es : List ε) :
    allKeysNone (mapEntries cfg st es).1 = true ∧
    (mapEntries cfg st es).2.all noPartitioning = true := by
  induction es generalizing st with
  | nil => exact ⟨hst, by simp [mapEntries]⟩
  | cons e rest ih =>
    obtain ⟨h1, h2⟩ := mapRecords_falsy_noPart cfg hfalsy st hst (cfg.map e cfg.params)
    obtain ⟨h3, h4⟩ := ih _ h1
    refine ⟨h3, ?_⟩
    rw [mapEntries]
    simp only [List.all_append]
    rw [h2, h4]
    rfl

theorem mapFlush_noPart
    (comb : Option κ → Option ν → β → Bool → π → β × List (κ × ν))
    (params : π) (st : List (Option String × β))
    (hst : allKeysNone st = true) :
    (mapFlush comb params st).all noPartitioning = true := by
  induction st with
  | nil => rfl
  | cons pb rest ih =>
    simp only [allKeysNone, List.all_cons, Bool.and_eq_true, beq_iff_eq] at hst
    simp only [mapFlush, List.flatMap_cons, List.all_append, List.all_cons,
      Bool.and_eq_true]
    refine ⟨⟨by simp [noPartitioning, hst.1], ?_⟩, ?_⟩
    · rw [hst.1]
      exact adds_noPart _
    · exact ih hst.2

/-- C10: a configured partition count of `0` (or any falsy value)
behaves exactly like an absent partition count: the run's transcript is
identical to that of the configuration with `partitions = None` — for
any partition function, which is therefore never invoked — the run
cannot fail, and every event routes to the single unpartitioned sink
(partition identifier `None`). -/
theorem map_partitions_falsy_like_absent (cfg : MapConfig ε κ ν β π)
    (g : κ → Nat → π → Nat) (entries : List ε)
    (hfalsy : pyTruthy cfg.partitions = false) :
    Worker.map cfg entries
      = Worker.map { cfg with partitions := none, partition := g } entries ∧
    ∃ evs, Worker.map cfg entries = .ok evs ∧
      evs.all noPartitioning = true := by
  have hcond : (cfg.save && pyTruthy cfg.partitions && !cfg.hasReduce) = false := by
    simp [hfalsy]
  have hcond2 : (({ cfg with partitions := none, partition := g } :
      MapConfig ε κ ν β π).save
        && pyTruthy ({ cfg with partitions := none, partition := g } :
          MapConfig ε κ ν β π).partitions
        && !({ cfg with partitions := none, partition := g } :
          MapConfig ε κ ν β π).hasReduce) = false := by
    simp [pyTruthy]
  constructor
  · rw [Worker.map, Worker.map, if_neg (by simp [hcond]),
      if_neg (by simp [hcond2]), mapEntries_falsy_eq cfg g hfalsy]
  · rw [Worker.map, if_neg (by simp [hcond])]
    refine ⟨_, rfl, ?_⟩
    obtain ⟨h1, h2⟩ := mapEntries_falsy_noPart cfg hfalsy [] rfl entries
    simp only [List.all_append]
    rw [h2]
    cases hcomb : cfg.combiner with
    | none => rfl
    | some comb =>
      simp only [Bool.true_and]
      exact mapFlush_noPart comb cfg.params _ h1

/-- A configuration with partition count `0`, a combiner, and a
partition function that would send everything to partition `1` if it
were ever consulted. -/
def c10cfg : MapConfig Nat Nat Nat Nat Unit :=
  { save := false
    hasReduce := false
    partitions := some 0
    partition := fun _ _ _ => 1
    combiner := some (fun _ v b f _ => if f then (b, [(0, b)]) else (b + v.getD 0, []))
    emptyBuf := 0
    map := fun e _ => [(e, e)]
    params := () }

/-- Concrete application of `map_partitions_falsy_like_absent` at
partition count `0`. -/
theorem map_partitions_falsy_witness :
    pyTruthy c10cfg.partitions = false ∧
    (Worker.map c10cfg [4, 5]
       = Worker.map
           { c10cfg with partitions := none, partition := (fun _ _ _ => 2) }
           [4, 5] ∧
     ∃ evs, Worker.map c10cfg [4, 5] = .ok evs ∧
       evs.all noPartitioning = true) :=
  ⟨rfl, map_partitions_falsy_like_absent c10cfg (fun _ _ _ => 2) [4, 5] rfl⟩

/-! ### C1: combiner buffers are flushed exactly once, at end of input -/

/-- Is this event a final (`isFinal=True`) combiner invocation? -/
def isFinalCombine : MapEvent κ ν β π → Bool
  | .combineCall _ _ _ _ true _ => true
  | _ => false

/-- Is this event a sink write? -/
def isAddEvent : MapEvent κ ν β π → Bool
  | .add _ _ _ => true
  | _ => false

/-- Partitions of the final combiner invocations, in order. -/
def finalParts (evs : List (MapEvent κ ν β π)) : List (Option String) :=
  evs.filterMap fun e => match e with
    | .combineCall p _ _ _ true _ => some p
    | _ => none

/-- Partitions of the non-final combiner invocations (one per record
routed through a combiner), in order. -/
def nonFinalParts (evs : List (MapEvent κ ν β π)) : List (Option String) :=
  evs.filterMap fun e => match e with
    | .combineCall p _ _ _ false _ => some p
    | _ => none

/-- Deduplication keeping first occurrences, skipping elements already
`seen`. -/
def firstDedup [DecidableEq γ] (seen : List γ) : List γ → List γ
  | [] => []
  | a :: l => if a ∈ seen then firstDedup seen l else a :: firstDedup (a :: seen) l

/-- The partitions that received at least one record, in first-touch
order. -/
def touchedParts (evs : List (MapEvent κ ν β π)) : List (Option String) :=
  firstDedup [] (nonFinalParts evs)

/-- Key insertion in first-touch order: the key set of `bufs` after
`if part not in bufs: bufs[part] = {}`. -/
def insKey [DecidableEq γ] (ks : List γ) (p : γ) : List γ :=
  if p ∈ ks then ks else ks ++ [p]

/-- Every final combiner invocation in the transcript is immediately
followed by sink writes of exactly the records that invocation
returns. -/
def flushesFollowed [DecidableEq κ] [DecidableEq ν] [DecidableEq β]
    [DecidableEq π]
    (comb : Option κ → Option ν → β → Bool → π → β × List (κ × ν)) :
    List (MapEvent κ ν β π) → Bool
  | [] => true
  | .combineCall p _ _ b true ps :: rest =>
      let adds := (comb none none b true ps).2.map
        fun r => MapEvent.add p r.1 r.2
      adds.isPrefixOf rest && flushesFollowed comb (rest.drop adds.length)
  | .combineCall _ _ _ _ false _ :: rest => flushesFollowed comb rest
  | .partCall _ _ :: rest => flushesFollowed comb rest
  | .add _ _ _ :: rest => flushesFollowed comb rest
termination_by l => l.length
decreasing_by
  all_goals first
    | omega
    | (simp only [List.length_cons, List.length_drop]; omega)

theorem firstDedup_congr [DecidableEq γ] (s₁ s₂ : List γ)
    (h : ∀ x, x ∈ s₁ ↔ x ∈ s₂) (l : List γ) :
    firstDedup s₁ l = firstDedup s₂ l := by
  induction l generalizing s₁ s₂ with
  | nil => rfl
  | cons a l ih =>
    by_cases ha : a ∈ s₁
    · rw [firstDedup, if_pos ha, firstDedup, if_pos ((h a).mp ha)]
      exact ih s₁ s₂ h
    · rw [firstDedup, if_neg ha, firstDedup, if_neg (fun hc => ha ((h a).mpr hc))]
      congr 1
      apply ih
      intro x
      simp [h x]

theorem foldl_insKey_eq_firstDedup [DecidableEq γ] (ks : List γ) (l : List γ) :
    List.foldl insKey ks l = ks ++ firstDedup ks l := by
  induction l generalizing ks with
  | nil => simp [firstDedup]
  | cons a l ih =>
    by_cases ha : a ∈ ks
    · rw [List.foldl_cons, show insKey ks a = ks from if_pos ha, ih,
        firstDedup, if_pos ha]
    · have hseen : firstDedup (ks ++ [a]) l = firstDedup (a :: ks) l :=
        firstDedup_congr (ks ++ [a]) (a :: ks) (fun x => by simp [or_comm]) l
      rw [List.foldl_cons, show insKey ks a = ks ++ [a] from if_neg ha, ih,
        firstDedup, if_neg ha, hseen, List.append_assoc, List.singleton_append]

theorem firstDedup_nodup [DecidableEq γ] (seen : List γ) (l : List γ) :
    (firstDedup seen l).Nodup ∧ ∀ x ∈ firstDedup seen l, x ∉ seen := by
  induction l generalizing seen with
  | nil => simp [firstDedup]
  | cons a l ih =>
    by_cases ha : a ∈ seen
    · rw [firstDedup, if_pos ha]
      exact ih seen
    · rw [firstDedup, if_neg ha]
      obtain ⟨hnd, hnotin⟩ := ih (a :: seen)
      refine ⟨List.nodup_cons.mpr ⟨?_, hnd⟩, ?_⟩
      · intro hmem
        exact hnotin a hmem (List.mem_cons_self _ _)
      · intro x hx hxs
        rcases List.mem_cons.mp hx with rfl | hx2
        · exact ha hxs
        · exact hnotin x hx2 (List.mem_cons_of_mem _ hxs)

@[simp] theorem finalParts_nil : finalParts ([] : List (MapEvent κ ν β π)) = [] := rfl

@[simp] theorem finalParts_append (l₁ l₂ : List (MapEvent κ ν β π)) :
    finalParts (l₁ ++ l₂) = finalParts l₁ ++ finalParts l₂ :=
  List.filterMap_append l₁ l₂ _

@[simp] theorem finalParts_cons_partCall (k : κ) (n : Nat)
    (l : List (MapEvent κ ν β π)) :
    finalParts (.partCall k n :: l) = finalParts l := rfl

@[simp] theorem finalParts_cons_combine_true (p : Option String) (k : Option κ)
    (v : Option ν) (b : β) (ps : π) (l : List (MapEvent κ ν β π)) :
    finalParts (.combineCall p k v b true ps :: l) = p :: finalParts l := rfl

@[simp] theorem finalParts_cons_combine_false (p : Option String) (k : Option κ)
    (v : Option ν) (b : β) (ps : π) (l : List (MapEvent κ ν β π)) :
    finalParts (.combineCall p k v b false ps :: l) = finalParts l := rfl

@[simp] theorem finalParts_cons_add (p : Option String) (k : κ) (v : ν)
    (l : List (MapEvent κ ν β π)) :
    finalParts (.add p k v :: l) = finalParts l := rfl

@[simp] theorem nonFinalParts_nil :
    nonFinalParts ([] : List (MapEvent κ ν β π)) = [] := rfl

@[simp] theorem nonFinalParts_append (l₁ l₂ : List (MapEvent κ ν β π)) :
    nonFinalParts (l₁ ++ l₂) = nonFinalParts l₁ ++ nonFinalParts l₂ :=
  List.filterMap_append l₁ l₂ _

@[simp] theorem nonFinalParts_cons_partCall (k : κ) (n : Nat)
    (l : List (MapEvent κ ν β π)) :
    nonFinalParts (.partCall k n :: l) = nonFinalParts l := rfl

@[simp] theorem nonFinalParts_cons_combine_true (p : Option String)
    (k : Option κ) (v : Option ν) (b : β) (ps : π)
    (l : List (MapEvent κ ν β π)) :
    nonFinalParts (.combineCall p k v b true ps :: l) = nonFinalParts l := rfl

@[simp] theorem nonFinalParts_cons_combine_false (p : Option String)
    (k : Option κ) (v : Option ν) (b : β) (ps : π)
    (l : List (MapEvent κ ν β π)) :
    nonFinalParts (.combineCall p k v b false ps :: l)
      = p :: nonFinalParts l := rfl

@[simp] theorem nonFinalParts_cons_add (p : Option String) (k : κ) (v : ν)
    (l : List (MapEvent κ ν β π)) :
    nonFinalParts (.add p k v :: l) = nonFinalParts l := rfl

@[simp] theorem finalParts_adds (p : Option String) (l : List (κ × ν)) :
    finalParts (l.map fun r => (MapEvent.add p r.1 r.2 : MapEvent κ ν β π)) = [] := by
  induction l with
  | nil => rfl
  | cons r rest ih => simpa using ih

@[simp] theorem nonFinalParts_adds (p : Option String) (l : List (κ × ν)) :
    nonFinalParts (l.map fun r => (MapEvent.add p r.1 r.2 : MapEvent κ ν β π)) = [] := by
  induction l with
  | nil => rfl
  | cons r rest ih => simpa using ih

theorem adds_no_finalCombine (p : Option String) (l : List (κ × ν)) :
    ∀ e ∈ l.map fun r => (MapEvent.add p r.1 r.2 : MapEvent κ ν β π),
      isFinalCombine e = false := by
  intro e he
  obtain ⟨r, _, rfl⟩ := List.mem_map.mp he
  rfl

theorem partOf_snd_spec (cfg : MapConfig ε κ ν β π) (key : κ) :
    nonFinalParts (partOf cfg key).2 = [] ∧
    finalParts (partOf cfg key).2 = [] ∧
    ∀ e ∈ (partOf cfg key).2, isFinalCombine e = false := by
  cases hp : cfg.partitions with
  | none =>
    simp [partOf, hp]
  | some n =>
    cases hn : pyTruthy (some n) with
    | false =>
      simp [partOf, hp, hn]
    | true =>
      refine ⟨?_, ?_, ?_⟩ <;> simp [partOf, hp, hn, isFinalCombine]

theorem bufLookup_cons_hit (e : Option String × β)
    (rest : List (Option String × β)) (p : Option String) (he : e.1 = p) :
    bufLookup (e :: rest) p = some e.2 := by
  simp [bufLookup, List.find?, he]

theorem bufLookup_cons_miss (e : Option String × β)
    (rest : List (Option String × β)) (p : Option String) (he : ¬ e.1 = p) :
    bufLookup (e :: rest) p = bufLookup rest p := by
  simp [bufLookup, List.find?, he]

theorem bufLookup_some_mem (st : List (Option String × β)) (p : Option String)
    (b : β) (h : bufLookup st p = some b) : p ∈ st.map Prod.fst := by
  induction st with
  | nil => simp [bufLookup] at h
  | cons e rest ih =>
    by_cases he : e.1 = p
    · simp [he]
    · rw [bufLookup_cons_miss e rest p he] at h
      exact List.mem_cons_of_mem _ (ih h)

theorem bufLookup_none_not_mem (st : List (Option String × β)) (p : Option String)
    (h : bufLookup st p = none) : p ∉ st.map Prod.fst := by
  induction st with
  | nil => simp
  | cons e rest ih =>
    by_cases he : e.1 = p
    · rw [bufLookup_cons_hit e rest p he] at h
      simp at h
    · rw [bufLookup_cons_miss e rest p he] at h
      simp only [List.map_cons, List.mem_cons]
      rintro (hc | hc)
      · exact he hc.symm
      · exact ih h hc

theorem keys_bufUpdate (st : List (Option String × β)) (p : Option String) (b : β) :
    (bufUpdate st p b).map Prod.fst = st.map Prod.fst := by
  induction st with
  | nil => rfl
  | cons e rest ih =>
    rw [show bufUpdate (e :: rest) p b
        = (if e.1 = p then (p, b) else e) :: bufUpdate rest p b from rfl]
    simp only [List.map_cons, ih]
    by_cases he : e.1 = p
    · simp [if_pos he, he]
    · simp [if_neg he]

theorem mapRecord_spec (cfg : MapConfig ε κ ν β π)
    (comb : Option κ → Option ν → β → Bool → π → β × List (κ × ν))
    (hcomb : cfg.combiner = some comb)
    (st : List (Option String × β)) (kv : κ × ν) :
    (mapRecord cfg st kv).1.map Prod.fst
      = insKey (st.map Prod.fst) (partOf cfg kv.1).1 ∧
    nonFinalParts (mapRecord cfg st kv).2 = [(partOf cfg kv.1).1] ∧
    ∀ e ∈ (mapRecord cfg st kv).2, isFinalCombine e = false := by
  obtain ⟨hnf, hf, hnofin⟩ := partOf_snd_spec cfg kv.1
  rw [mapRecord, hcomb]
  simp only
  cases hlk : bufLookup st (partOf cfg kv.1).1 with
  | some b =>
    have hmem := bufLookup_some_mem st _ b hlk
    refine ⟨?_, ?_, ?_⟩
    · simp only [hlk, keys_bufUpdate, insKey, if_pos hmem]
    · simp only [hlk, nonFinalParts_append, hnf,
        nonFinalParts_cons_combine_false, nonFinalParts_adds, List.nil_append]
    · intro e he
      simp only [hlk, List.mem_append, List.mem_cons] at he
      rcases he with he | he | he
      · exact hnofin e he
      · rw [he]; rfl
      · exact adds_no_finalCombine _ _ e he
  | none =>
    have hmem := bufLookup_none_not_mem st _ hlk
    refine ⟨?_, ?_, ?_⟩
    · simp only [hlk, keys_bufUpdate, insKey, if_neg hmem, List.map_append]
      rfl
    · simp only [hlk, nonFinalParts_append, hnf,
        nonFinalParts_cons_combine_false, nonFinalParts_adds, List.nil_append]
    · intro e he
      simp only [hlk, List.mem_append, List.mem_cons] at he
      rcases he with he | he | he
      · exact hnofin e he
      · rw [he]; rfl
      · exact adds_no_finalCombine _ _ e he

theorem mapRecords_spec (cfg : MapConfig ε κ ν β π)
    (comb : Option κ → Option ν → β → Bool → π → β × List (κ × ν))
    (hcomb : cfg.combiner = some comb)
    (st : List (Option String × β)) (rs : List (κ × ν)) :
    (mapRecords cfg st rs).1.map Prod.fst
      = List.foldl insKey (st.map Prod.fst)
          (nonFinalParts (mapRecords cfg st rs).2) ∧
    ∀ e ∈ (mapRecords cfg st rs).2, isFinalCombine e = false := by
  induction rs generalizing st with
  | nil => exact ⟨rfl, by simp [mapRecords]⟩
  | cons kv rest ih =>
    obtain ⟨hk1, hnf1, hnofin1⟩ := mapRecord_spec cfg comb hcomb st kv
    obtain ⟨hk2, hnofin2⟩ := ih (mapRecord cfg st kv).1
    rw [mapRecords]
    refine ⟨?_, ?_⟩
    · simp only [nonFinalParts_append, List.foldl_append, hnf1]
      rw [hk2, hk1]
      rfl
    · intro e he
      simp only [List.mem_append] at he
      rcases he with he | he
      · exact hnofin1 e he
      · exact hnofin2 e he

theorem mapEntries_spec (cfg : MapConfig ε κ ν β π)
    (comb : Option κ → Option ν → β → Bool → π → β × List (κ × ν))
    (hcomb : cfg.combiner = some comb)
    (st : List (Option String × β)) (es : List ε) :
    (mapEntries cfg st es).1.map Prod.fst
      = List.foldl insKey (st.map Prod.fst)
          (nonFinalParts (mapEntries cfg st es).2) ∧
    ∀ e ∈ (mapEntries cfg st es).2, isFinalCombine e = false := by
  induction es generalizing st with
  | nil => exact ⟨rfl, by simp [mapEntries]⟩
  | cons e rest ih =>
    obtain ⟨hk1, hnofin1⟩ := mapRecords_spec cfg comb hcomb st (cfg.map e cfg.params)
    obtain ⟨hk2, hnofin2⟩ := ih (mapRecords cfg st (cfg.map e cfg.params)).1
    rw [mapEntries]
    refine ⟨?_, ?_⟩
    · simp only [nonFinalParts_append, List.foldl_append]
      rw [hk2, hk1]
    · intro x hx
      simp only [List.mem_append] at hx
      rcases hx with hx | hx
      · exact hnofin1 x hx
      · exact hnofin2 x hx

theorem insKey_nodup [DecidableEq γ] (ks : List γ) (p : γ) (h : ks.Nodup) :
    (insKey ks p).Nodup := by
  rw [insKey]
  by_cases hp : p ∈ ks
  · rw [if_pos hp]; exact h
  · rw [if_neg hp]
    simp [List.nodup_append, h, hp]

theorem foldl_insKey_nodup [DecidableEq γ] (ks : List γ) (l : List γ)
    (h : ks.Nodup) : (List.foldl insKey ks l).Nodup := by
  induction l generalizing ks with
  | nil => exact h
  | cons a l ih => exact ih (insKey ks a) (insKey_nodup ks a h)

theorem finalParts_mapFlush
    (comb : Option κ → Option ν → β → Bool → π → β × List (κ × ν))
    (params : π) (st : List (Option String × β)) :
    finalParts (mapFlush comb params st) = st.map Prod.fst := by
  induction st with
  | nil => rfl
  | cons pb rest ih =>
    simp only [mapFlush, List.flatMap_cons] at ih ⊢
    simp [ih]

theorem nonFinalParts_mapFlush
    (comb : Option κ → Option ν → β → Bool → π → β × List (κ × ν))
    (params : π) (st : List (Option String × β)) :
    nonFinalParts (mapFlush comb params st) = [] := by
  induction st with
  | nil => rfl
  | cons pb rest ih =>
    simp only [mapFlush, List.flatMap_cons] at ih ⊢
    simp [ih]

theorem mapFlush_final_or_add
    (comb : Option κ → Option ν → β → Bool → π → β × List (κ × ν))
    (params : π) (st : List (Option String × β)) :
    ∀ e ∈ mapFlush comb params st,
      isFinalCombine e = true ∨ isAddEvent e = true := by
  intro e he
  rw [mapFlush] at he
  obtain ⟨pb, _, hin⟩ := List.mem_flatMap.mp he
  rcases List.mem_cons.mp hin with rfl | hin2
  · left; rfl
  · right
    obtain ⟨r, _, rfl⟩ := List.mem_map.mp hin2
    rfl

theorem mapFlush_shape
    (comb : Option κ → Option ν → β → Bool → π → β × List (κ × ν))
    (params : π) (st : List (Option String × β)) :
    ∀ e ∈ mapFlush comb params st, isFinalCombine e = true →
      ∃ p b, e = MapEvent.combineCall p none none b true params := by
  intro e he hfin
  rw [mapFlush] at he
  obtain ⟨pb, _, hin⟩ := List.mem_flatMap.mp he
  rcases List.mem_cons.mp hin with rfl | hin2
  · exact ⟨pb.1, pb.2, rfl⟩
  · obtain ⟨r, _, rfl⟩ := List.mem_map.mp hin2
    exact absurd hfin (by simp [isFinalCombine])

theorem isPrefixOf_append_self [DecidableEq α] (l t : List α) :
    l.isPrefixOf (l ++ t) = true := by
  induction l with
  | nil => simp [List.isPrefixOf]
  | cons a l ih => simp [List.isPrefixOf, ih]

theorem flushesFollowed_mapFlush [DecidableEq κ] [DecidableEq ν] [DecidableEq β]
    [DecidableEq π]
    (comb : Option κ → Option ν → β → Bool → π → β × List (κ × ν))
    (params : π) (st : List (Option String × β)) :
    flushesFollowed comb (mapFlush comb params st) = true := by
  induction st with
  | nil => simp [mapFlush, flushesFollowed]
  | cons pb rest ih =>
    rw [mapFlush, List.flatMap_cons, List.cons_append, flushesFollowed]
    simp only [Bool.and_eq_true]
    refine ⟨isPrefixOf_append_self _ _, ?_⟩
    rw [List.drop_left]
    exact ih

theorem flushesFollowed_skip_noFinal [DecidableEq κ] [DecidableEq ν]
    [DecidableEq β] [DecidableEq π]
    (comb : Option κ → Option ν → β → Bool → π → β × List (κ × ν))
    (l₁ l₂ : List (MapEvent κ ν β π))
    (hno : ∀ e ∈ l₁, isFinalCombine e = false) :
    flushesFollowed comb (l₁ ++ l₂) = flushesFollowed comb l₂ := by
  induction l₁ with
  | nil => rfl
  | cons e rest ih =>
    have hrest : ∀ x ∈ rest, isFinalCombine x = false := by
      intro x hx
      exact hno x (List.mem_cons_of_mem _ hx)
    rw [List.cons_append]
    cases e with
    | partCall k n => rw [flushesFollowed]; exact ih hrest
    | add p k v => rw [flushesFollowed]; exact ih hrest
    | combineCall p k v b f ps =>
      cases f with
      | false => rw [flushesFollowed]; exact ih hrest
      | true =>
        have := hno (.combineCall p k v b true ps) (List.mem_cons_self _ _)
        simp [isFinalCombine] at this

/-- C1: with a combiner configured, every partition buffer created
during input processing — exactly the partitions that received at least
one record — is flushed exactly once after all input is consumed: the
transcript's final combiner invocations hit the touched partitions
exactly once each (in first-touch order), all of them occur after every
partition-function call and every non-final combiner call, each is a
call with `key=None, value=None, isFinal=True` and the params object,
and each is immediately followed by sink writes of exactly the records
it returns, to that partition. -/
theorem map_combiner_flush [DecidableEq κ] [DecidableEq ν] [DecidableEq β]
    [DecidableEq π] (cfg : MapConfig ε κ ν β π) (entries : List ε)
    (comb : Option κ → Option ν → β → Bool → π → β × List (κ × ν))
    (hcomb : cfg.combiner = some comb)
    (evs : List (MapEvent κ ν β π))
    (hok : Worker.map cfg entries = .ok evs) :
    finalParts evs = touchedParts evs ∧
    (finalParts evs).Nodup ∧
    (∃ k, (∀ e ∈ evs.take k, isFinalCombine e = false) ∧
          (∀ e ∈ evs.drop k, isFinalCombine e = true ∨ isAddEvent e = true)) ∧
    (∀ e ∈ evs, isFinalCombine e = true →
       ∃ p b, e = MapEvent.combineCall p none none b true cfg.params) ∧
    flushesFollowed comb evs = true := by
  rw [Worker.map] at hok
  by_cases hbad : (cfg.save && pyTruthy cfg.partitions && !cfg.hasReduce) = true
  · rw [if_pos hbad] at hok
    exact absurd hok (by simp)
  · rw [if_neg hbad, hcomb] at hok
    simp only [Except.ok.injEq] at hok
    obtain ⟨hkeys, hnofin⟩ := mapEntries_spec cfg comb hcomb [] entries
    set proc := mapEntries cfg [] entries with hproc
    have hevs : evs = proc.2 ++ mapFlush comb cfg.params proc.1 := hok.symm
    have hkeys0 : proc.1.map Prod.fst
        = firstDedup [] (nonFinalParts proc.2) := by
      rw [hkeys, foldl_insKey_eq_firstDedup]
      rfl
    have hfinal : finalParts evs = proc.1.map Prod.fst := by
      rw [hevs, finalParts_append, finalParts_mapFlush]
      have : finalParts proc.2 = [] := by
        rw [finalParts]
        apply List.filterMap_eq_nil_iff.mpr
        intro e he
        have := hnofin e he
        cases e with
        | partCall k n => rfl
        | add p k v => rfl
        | combineCall p k v b f ps =>
          cases f with
          | false => rfl
          | true => simp [isFinalCombine] at this
      rw [this, List.nil_append]
    have htouch : touchedParts evs = firstDedup [] (nonFinalParts proc.2) := by
      rw [touchedParts, hevs, nonFinalParts_append, nonFinalParts_mapFlush,
        List.append_nil]
    refine ⟨?_, ?_, ?_, ?_, ?_⟩
    · rw [hfinal, htouch, hkeys0]
    · rw [hfinal, hkeys]
      exact foldl_insKey_nodup _ _ (by simp)
    · refine ⟨proc.2.length, ?_, ?_⟩
      · intro e he
        rw [hevs, List.take_left] at he
        exact hnofin e he
      · intro e he
        rw [hevs, List.drop_left] at he
        exact mapFlush_final_or_add comb cfg.params proc.1 e he
    · intro e he hfin
      rw [hevs] at he
      rcases List.mem_append.mp he with he | he
      · exact absurd hfin (by simp [hnofin e he])
      · exact mapFlush_shape comb cfg.params proc.1 e he hfin
    · rw [hevs, flushesFollowed_skip_noFinal comb _ _ hnofin]
      exact flushesFollowed_mapFlush comb cfg.params proc.1

/-- A summing combiner: accumulates values in the buffer, emits the
accumulated sum under key `99` on the final flush. -/
def c1comb : Option Nat → Option Nat → Nat → Bool → Unit → Nat × List (Nat × Nat) :=
  fun _ v b f _ => if f then (b, [(99, b)]) else (b + v.getD 0, [])

/-- Two partitions, parity partitioning, combiner `c1comb`. -/
def c1cfg : MapConfig Nat Nat Nat Nat Unit :=
  { save := false
    hasReduce := false
    partitions := some 2
    partition := fun k n _ => k % n
    combiner := some c1comb
    emptyBuf := 0
    map := fun e _ => [(e % 2, e)]
    params := () }

/-- The transcript of the `c1cfg` run on `[1, 2, 3]`. -/
def c1evs : List (MapEvent Nat Nat Nat Unit) :=
  (Worker.map c1cfg [1, 2, 3]).toOption.getD []

/-- Concrete application of `map_combiner_flush` to the `c1cfg` run on
`[1, 2, 3]`. -/
theorem map_combiner_flush_witness :
    c1cfg.combiner = some c1comb ∧
    Worker.map c1cfg [1, 2, 3] = .ok c1evs ∧
    (finalParts c1evs = touchedParts c1evs ∧
     (finalParts c1evs).Nodup ∧
     (∃ k, (∀ e ∈ c1evs.take k, isFinalCombine e = false) ∧
           (∀ e ∈ c1evs.drop k, isFinalCombine e = true ∨ isAddEvent e = true)) ∧
     (∀ e ∈ c1evs, isFinalCombine e = true →
        ∃ p b, e = MapEvent.combineCall p none none b true c1cfg.params) ∧
     flushesFollowed c1comb c1evs = true) :=
  ⟨rfl, rfl, map_combiner_flush c1cfg [1, 2, 3] c1comb rfl c1evs rfl⟩

/-! ## Reduce input gathering: `Worker.reduce` (worker.py lines 286-292)
and `Worker.sort` (lines 302-307)

```
inputs = [input(id) for id in inputs()]
partition = None
if ispartitioned(inputs) and not self['merge_partitions']:
    partition = str(task.taskid)
ordered = self.sort(SerialInput(shuffled(inputlist(inputs, partition=partition)), ...), task)
```

The partition-selector logic and the shuffle-then-sort composition are
in this source; the collaborators `ispartitioned`, `inputlist`,
`shuffled` (from `disco.util`) and `disk_sort` (from
`disco.worker.classic.func`) are not under this file's source and are
modelled from the spec below. -/

/-- A reduce input source: either partitioned output of a prior map
phase (records per partition identifier) or a plain record sequence. -/
inductive RInput (κ ν : Type) where
  | partitioned (parts : List (String × List (κ × ν)))
  | plain (records : List (κ × ν))
deriving DecidableEq, Repr

/-- Modelled from the spec: `disco.util.ispartitioned` (not under src/)
decides whether the gathered inputs "are already partitioned by a prior
map phase". -/
def ispartitioned (inputs : List (RInput κ ν)) : Bool :=
  inputs.all fun i => match i with
    | .partitioned _ => true
    | .plain _ => false

/-- Modelled from the spec: the records one source contributes under a
partition selector — "only this task's designated partition is read
across all partitioned sources — otherwise all records are merged
together". -/
def sourceRecords : Option String → RInput κ ν → List (κ × ν)
  | some p, .partitioned parts =>
      ((parts.filter (fun e => e.1 == p)).map Prod.snd).flatten
  | none, .partitioned parts => (parts.map Prod.snd).flatten
  | _, .plain rs => rs

/-- Modelled from the spec: `disco.util.inputlist(inputs,
partition=...)` (not under src/) — the per-source record sequences under
the given partition selector. -/
def inputlist (inputs : List (RInput κ ν)) (partition : Option String) :
    List (List (κ × ν)) :=
  inputs.map (sourceRecords partition)

/-- One round of interleaving: the heads of the sources. -/
def headsOf (ls : List (List α)) : List α :=
  ls.filterMap List.head?

/-- Modelled from the spec: `disco.util.shuffled` (not under src/) —
"Shuffle: interleaving of multiple input sources assigned to one reduce
task into a single sequence"; fuel-bounded round-robin interleave. -/
def interleave : Nat → List (List α) → List α
  | 0, _ => []
  | fuel + 1, ls =>
      match headsOf ls with
      | [] => []
      | h :: hs => (h :: hs) ++ interleave fuel (ls.map (List.drop 1))

/-- Total record count across sources. -/
def totalLen (ls : List (List α)) : Nat :=
  (ls.map List.length).sum

/-- Modelled from the spec: `shuffled`, with enough fuel to interleave
everything. -/
def shuffled (ls : List (List α)) : List α :=
  interleave (totalLen ls) ls

/-- Modelled from the spec: `disco.worker.classic.func.disk_sort` (not
under src/) — records reordered by ascending key, equal keys grouped
contiguously. -/
def disk_sort [LinearOrder κ] (rs : List (κ × ν)) : List (κ × ν) :=
  rs.mergeSort (fun a b => decide (a.1 ≤ b.1))

/-- `Worker.sort` (worker.py lines 302-307): route through `disk_sort`
when the sort option is enabled, else pass through unmodified. -/
def Worker.sort [LinearOrder κ] (sortFlag : Bool) (input : List (κ × ν)) :
    List (κ × ν) :=
  if sortFlag then disk_sort input else input

structure ReduceGatherConfig where
  merge_partitions : Bool
  sortFlag : Bool

structure ReduceTask where
  taskid : Nat

/-- The effective partition selector of `Worker.reduce`: `partition =
None; if ispartitioned(inputs) and not self['merge_partitions']:
partition = str(task.taskid)`. -/
def reduceSelector (cfg : ReduceGatherConfig) (task : ReduceTask)
    (inputs : List (RInput κ ν)) : Option String :=
  if ispartitioned inputs && !cfg.merge_partitions
  then some (toString task.taskid) else none

/-- `ordered = self.sort(SerialInput(shuffled(inputlist(inputs,
partition=partition)), ...), task)`: the record sequence handed to the
Progress Reporter and then the reduce function. -/
def reduceOrdered [LinearOrder κ] (cfg : ReduceGatherConfig)
    (task : ReduceTask) (inputs : List (RInput κ ν)) : List (κ × ν) :=
  Worker.sort cfg.sortFlag
    (shuffled (inputlist inputs (reduceSelector cfg task inputs)))

@[simp] theorem headsOf_nil : headsOf ([] : List (List α)) = [] := rfl

@[simp] theorem headsOf_cons_empty (ls : List (List α)) :
    headsOf ([] :: ls) = headsOf ls := rfl

@[simp] theorem headsOf_cons_cons (a : α) (t : List α) (ls : List (List α)) :
    headsOf ((a :: t) :: ls) = a :: headsOf ls := rfl

@[simp] theorem drop_one_cons (a : α) (t : List α) :
    List.drop 1 (a :: t) = t := rfl

theorem headsOf_length_totalLen (ls : List (List α)) :
    totalLen (ls.map (List.drop 1)) + (headsOf ls).length = totalLen ls := by
  induction ls with
  | nil => rfl
  | cons l ls ih =>
    cases l with
    | nil =>
      simp only [totalLen, List.map_cons, headsOf_cons_empty, List.drop_nil,
        List.sum_cons] at ih ⊢
      omega
    | cons a t =>
      simp only [totalLen, List.map_cons, headsOf_cons_cons, drop_one_cons,
        List.sum_cons, List.length_cons] at ih ⊢
      omega

theorem headsOf_nil_flatten (ls : List (List α)) (h : headsOf ls = []) :
    ls.flatten = [] := by
  induction ls with
  | nil => rfl
  | cons l ls ih =>
    cases l with
    | nil =>
      rw [headsOf_cons_empty] at h
      simp [ih h]
    | cons a t =>
      rw [headsOf_cons_cons] at h
      exact absurd h (by simp)

theorem flatten_perm_heads_tails (ls : List (List α)) :
    List.Perm ls.flatten (headsOf ls ++ (ls.map (List.drop 1)).flatten) := by
  induction ls with
  | nil => simp
  | cons l ls ih =>
    cases l with
    | nil =>
      simpa using ih
    | cons a t =>
      simp only [List.flatten_cons, headsOf_cons_cons, List.map_cons,
        drop_one_cons, List.cons_append]
      refine List.Perm.cons a ?_
      refine (List.Perm.append_left t ih).trans ?_
      rw [← List.append_assoc]
      refine (List.Perm.append_right _ List.perm_append_comm).trans ?_
      rw [List.append_assoc]

theorem interleave_perm (fuel : Nat) (ls : List (List α))
    (hfuel : totalLen ls ≤ fuel) : List.Perm (interleave fuel ls) ls.flatten := by
  induction fuel generalizing ls with
  | zero =>
    have hlen : ls.flatten.length = 0 := by
      simpa [totalLen] using Nat.le_zero.mp hfuel
    rw [interleave, List.eq_nil_of_length_eq_zero hlen]
  | succ fuel ih =>
    rw [interleave]
    cases hh : headsOf ls with
    | nil => rw [headsOf_nil_flatten ls hh]
    | cons h hs =>
      have hstep := flatten_perm_heads_tails ls
      rw [hh] at hstep
      have hfuel2 : totalLen (ls.map (List.drop 1)) ≤ fuel := by
        have := headsOf_length_totalLen ls
        rw [hh] at this
        simp only [List.length_cons] at this
        omega
      exact (List.Perm.append_left (h :: hs) (ih _ hfuel2)).trans hstep.symm

/-- C7: for every reduce task, when the gathered inputs are partitioned
by a prior map phase and partition merging is not requested, the
effective partition selector is the string form of the task's own id,
and the gathered sequence reads exactly the designated partition of
every source; otherwise no selector is applied and all records of all
sources are merged.  In both cases the input sequence handed onward is
the shuffle (source interleave) of the per-source sequences, with the
optional sort applied after the shuffle. -/
theorem reduce_partition_selection [LinearOrder κ]
    (cfg : ReduceGatherConfig) (task : ReduceTask)
    (inputs : List (RInput κ ν)) :
    reduceOrdered cfg task inputs
      = Worker.sort cfg.sortFlag
          (shuffled (inputlist inputs (reduceSelector cfg task inputs))) ∧
    (ispartitioned inputs = true → cfg.merge_partitions = false →
       reduceSelector cfg task inputs = some (toString task.taskid) ∧
       List.Perm
         (shuffled (inputlist inputs (reduceSelector cfg task inputs)))
         ((inputs.map (sourceRecords (some (toString task.taskid)))).flatten)) ∧
    (ispartitioned inputs = false ∨ cfg.merge_partitions = true →
       reduceSelector cfg task inputs = none ∧
       List.Perm
         (shuffled (inputlist inputs (reduceSelector cfg task inputs)))
         ((inputs.map (sourceRecords none)).flatten)) := by
  refine ⟨rfl, ?_, ?_⟩
  · intro hpart hmerge
    have hsel : reduceSelector cfg task inputs = some (toString task.taskid) := by
      rw [reduceSelector, if_pos (by simp [hpart, hmerge])]
    refine ⟨hsel, ?_⟩
    rw [hsel]
    exact interleave_perm _ _ (Nat.le_refl _)
  · intro hcase
    have hsel : reduceSelector cfg task inputs = none := by
      rw [reduceSelector, if_neg]
      rcases hcase with hc | hc <;> simp [hc]
    refine ⟨hsel, ?_⟩
    rw [hsel]
    exact interleave_perm _ _ (Nat.le_refl _)

/-- Concrete application of `reduce_partition_selection`: two
partitioned sources, task id `1`, no merging — only partition `"1"` of
each source is gathered. -/
theorem reduce_partition_selection_witness :
    (reduceSelector ⟨false, false⟩ ⟨1⟩
        ([.partitioned [("0", [(1, 10)]), ("1", [(2, 20)])],
          .partitioned [("1", [(3, 30)])]] : List (RInput Nat Nat))
      = some "1" ∧
     List.Perm
       (shuffled (inputlist
         ([.partitioned [("0", [(1, 10)]), ("1", [(2, 20)])],
           .partitioned [("1", [(3, 30)])]] : List (RInput Nat Nat))
         (reduceSelector ⟨false, false⟩ ⟨1⟩
           ([.partitioned [("0", [(1, 10)]), ("1", [(2, 20)])],
             .partitioned [("1", [(3, 30)])]] : List (RInput Nat Nat)))))
       (([.partitioned [("0", [(1, 10)]), ("1", [(2, 20)])],
          .partitioned [("1", [(3, 30)])]] : List (RInput Nat Nat)).map
           (sourceRecords (some (toString (1 : Nat))))).flatten) ∧
    shuffled (inputlist
        ([.partitioned [("0", [(1, 10)]), ("1", [(2, 20)])],
          .partitioned [("1", [(3, 30)])]] : List (RInput Nat Nat))
        (some "1"))
      = [(2, 20), (3, 30)] :=
  ⟨by
    have h := (reduce_partition_selection (κ := Nat) (ν := Nat)
      ⟨false, false⟩ ⟨1⟩
      [.partitioned [("0", [(1, 10)]), ("1", [(2, 20)])],
       .partitioned [("1", [(3, 30)])]]).2.1 rfl rfl
    simpa using h,
   by decide⟩

/-! ## Stream Chain construction: `ClassicFile.__init__` (worker.py
lines 335-345)

```
def __init__(self, url, streams, params, fd=None, size=None):
    self.fds = []
    for stream in streams:
        maybe_params = (params,) if util.argcount(stream) == 4 else ()
        fd = stream(fd, size, url, *maybe_params)
        if isinstance(fd, tuple):
            if len(fd) == 3:
                fd, size, url = fd
            else:
                fd, url = fd
        self.fds.append(fd)
```

A stage is embedded as its declared parameter count together with its
3-argument and 4-argument behaviors (`util.argcount` selects which one
is invoked); a stage's Python return value — a bare handle, a
`(handle, url)` pair or a `(handle, size, url)` triple — becomes
`StageResult`. -/

inductive StageResult (H σ υ : Type) where
  | plain (h : H)
  | withUrl (h : H) (u : υ)
  | withSizeUrl (h : H) (s : σ) (u : υ)
deriving DecidableEq, Repr

structure Stage (H σ υ π : Type) where
  argcount : Nat
  run3 : Option H → σ → υ → StageResult H σ υ
  run4 : Option H → σ → υ → π → StageResult H σ υ

/-- The `for stream in streams` loop of `ClassicFile.__init__`,
threading `fd`, `size` and `url` and accumulating `self.fds`. -/
def chainGo (params : π) :
    List (Stage H σ υ π) → Option H → σ → υ → List H × σ × υ
  | [], _, size, url => ([], size, url)
  | stage :: rest, fd, size, url =>
      let r := if stage.argcount == 4 then stage.run4 fd size url params
               else stage.run3 fd size url
      match r with
      | .plain h =>
          let t := chainGo params rest (some h) size url
          (h :: t.1, t.2)
      | .withUrl h u =>
          let t := chainGo params rest (some h) size u
          (h :: t.1, t.2)
      | .withSizeUrl h s u =>
          let t := chainGo params rest (some h) s u
          (h :: t.1, t.2)

/-- `ClassicFile.__init__(url, streams, params, fd=None, size=None)`:
the produced handle list `self.fds` together with the final running
size and location. -/
def ClassicFile.init (url : υ) (streams : List (Stage H σ υ π)) (params : π)
    (fd : Option H) (size : σ) : List H × σ × υ :=
  chainGo params streams fd size url

/-- The spec's normalized stage interface: "one stage interface
returning a fixed triple of (handle, size-override: optional,
location-override: optional), always present even when unchanged". -/
def toFixed : StageResult H σ υ → H × Option σ × Option υ
  | .plain h => (h, none, none)
  | .withUrl h u => (h, none, some u)
  | .withSizeUrl h s u => (h, some s, some u)

/-- Chain construction as the spec words it: each stage consumes the
previous handle, the current size and location (plus params exactly for
4-parameter stages), and its optional size/location overrides replace
the running values for all subsequent stages. -/
def specChainGo (params : π) :
    List (Stage H σ υ π) → Option H → σ → υ → List H × σ × υ
  | [], _, size, url => ([], size, url)
  | stage :: rest, fd, size, url =>
      let r := toFixed (if stage.argcount == 4 then stage.run4 fd size url params
                        else stage.run3 fd size url)
      let t := specChainGo params rest (some r.1) (r.2.1.getD size) (r.2.2.getD url)
      (r.1 :: t.1, t.2)

theorem chainGo_eq_specChainGo (params : π) (streams : List (Stage H σ υ π))
    (fd : Option H) (size : σ) (url : υ) :
    chainGo params streams fd size url = specChainGo params streams fd size url := by
  induction streams generalizing fd size url with
  | nil => rfl
  | cons stage rest ih =>
    rw [chainGo, specChainGo]
    cases hr : (if stage.argcount == 4 then stage.run4 fd size url params
                else stage.run3 fd size url) with
    | plain h => simp only [toFixed, Option.getD_none, ih]
    | withUrl h u => simp only [toFixed, Option.getD_none, Option.getD_some, ih]
    | withSizeUrl h s u => simp only [toFixed, Option.getD_some, ih]

theorem chainGo_length (params : π) (streams : List (Stage H σ υ π))
    (fd : Option H) (size : σ) (url : υ) :
    (chainGo params streams fd size url).1.length = streams.length := by
  induction streams generalizing fd size url with
  | nil => rfl
  | cons stage rest ih =>
    rw [chainGo]
    cases (if stage.argcount == 4 then stage.run4 fd size url params
           else stage.run3 fd size url) <;>
      simp only [List.length_cons, ih]

/-- Replaces the entry points a stage does not use, according to its
declared parameter count. -/
def scrubStage (g3 : Option H → σ → υ → StageResult H σ υ)
    (g4 : Option H → σ → υ → π → StageResult H σ υ) (s : Stage H σ υ π) :
    Stage H σ υ π :=
  if s.argcount == 4 then { s with run3 := g3 } else { s with run4 := g4 }

theorem chainGo_scrub (params : π) (streams : List (Stage H σ υ π))
    (g3 : Option H → σ → υ → StageResult H σ υ)
    (g4 : Option H → σ → υ → π → StageResult H σ υ)
    (fd : Option H) (size : σ) (url : υ) :
    chainGo params (streams.map (scrubStage g3 g4)) fd size url
      = chainGo params streams fd size url := by
  induction streams generalizing fd size url with
  | nil => rfl
  | cons stage rest ih =>
    rw [List.map_cons, chainGo, chainGo]
    have hsel : (if (scrubStage g3 g4 stage).argcount == 4 then
          (scrubStage g3 g4 stage).run4 fd size url params
        else (scrubStage g3 g4 stage).run3 fd size url)
        = (if stage.argcount == 4 then stage.run4 fd size url params
           else stage.run3 fd size url) := by
      rw [scrubStage]
      cases hc : (stage.argcount == 4) <;> simp [hc]
    rw [hsel]
    cases (if stage.argcount == 4 then stage.run4 fd size url params
           else stage.run3 fd size url) <;>
      simp only [ih]

theorem chainGo_params_indep (streams : List (Stage H σ υ π))
    (hno : ∀ s ∈ streams, s.argcount ≠ 4) (p q : π)
    (fd : Option H) (size : σ) (url : υ) :
    chainGo p streams fd size url = chainGo q streams fd size url := by
  induction streams generalizing fd size url with
  | nil => rfl
  | cons stage rest ih =>
    have h4 : (stage.argcount == 4) = false := by
      simpa using hno stage (List.mem_cons_self _ _)
    have hrest : ∀ s ∈ rest, s.argcount ≠ 4 := by
      intro s hs
      exact hno s (List.mem_cons_of_mem _ hs)
    rw [chainGo, chainGo]
    simp only [h4, Bool.false_eq_true, if_false]
    cases stage.run3 fd size url <;> simp only [ih hrest]

/-- C8: building a Stream Chain invokes every stage with the previous
stage's handle (the raw handle first), the running size and the running
location; the params object is passed additionally exactly when the
stage declares four parameters (a stage's unused entry point is
irrelevant, and with no 4-parameter stage the whole construction is
independent of params); a stage may return a plain handle or a handle
bundled with an updated location or size-and-location, and the
construction coincides with the spec's normalized fixed-triple
interface in which any returned size/location override replaces the
running value for all subsequent stages; one handle is produced per
stage. -/
theorem classicFile_init_spec (url : υ) (streams : List (Stage H σ υ π))
    (params : π) (fd : Option H) (size : σ) :
    ClassicFile.init url streams params fd size
      = specChainGo params streams fd size url ∧
    (ClassicFile.init url streams params fd size).1.length = streams.length ∧
    (∀ g3 g4, ClassicFile.init url (streams.map (scrubStage g3 g4)) params fd size
       = ClassicFile.init url streams params fd size) ∧
    ((∀ s ∈ streams, s.argcount ≠ 4) → ∀ q : π,
       ClassicFile.init url streams params fd size
         = ClassicFile.init url streams q fd size) :=
  ⟨chainGo_eq_specChainGo params streams fd size url,
   chainGo_length params streams fd size url,
   fun g3 g4 => chainGo_scrub params streams g3 g4 fd size url,
   fun hno q => chainGo_params_indep streams hno params q fd size url⟩

/-- A three-stage chain: a 3-parameter opener, a 4-parameter stage
rewriting size and location, and a 3-parameter stage rewriting the
location. -/
def c8streams : List (Stage Nat (Option Nat) Nat Nat) :=
  [{ argcount := 3
     run3 := fun _ _ _ => .plain 10
     run4 := fun _ _ _ _ => .plain 0 },
   { argcount := 4
     run3 := fun _ _ _ => .plain 0
     run4 := fun fd _ _ ps => .withSizeUrl ((fd.getD 0) + ps) (some 5) 77 },
   { argcount := 3
     run3 := fun fd _ u => .withUrl ((fd.getD 0) * 2) (u + 1)
     run4 := fun _ _ _ _ => .plain 0 }]

/-- Concrete application of `classicFile_init_spec` to `c8streams`:
the handles thread left to right, the 4-parameter stage receives the
params value `1`, and its size/location overrides reach the final
state. -/
theorem classicFile_init_spec_witness :
    (ClassicFile.init 50 c8streams 1 none none
       = specChainGo 1 c8streams none none 50 ∧
     (ClassicFile.init 50 c8streams 1 none none).1.length = c8streams.length ∧
     (∀ g3 g4, ClassicFile.init 50 (c8streams.map (scrubStage g3 g4)) 1 none none
        = ClassicFile.init 50 c8streams 1 none none) ∧
     ((∀ s ∈ c8streams, s.argcount ≠ 4) → ∀ q : Nat,
        ClassicFile.init 50 c8streams 1 none none
          = ClassicFile.init 50 c8streams q none none)) ∧
    ClassicFile.init 50 c8streams 1 none none
      = ([10, 11, 22], some 5, 78) :=
  ⟨classicFile_init_spec 50 c8streams 1 none none, rfl⟩

/-! ## Fire-and-forget status notifications: `status` (worker.py lines
17-18) inside `Worker.status_iter` (lines 309-316)

`status(message)` forwards to `disco.events.Status(message).send()`,
which is not under this file's source.  Per the spec, notifications are
best-effort fire-and-forget: a send on an unavailable channel is
dropped without raising.  The reporter is re-run against an explicit
channel-availability schedule to show item processing is unaffected. -/

inductive NetEvent (α : Type) where
  | yield (item : α)
  | delivered (count : Nat) (final : Bool)
  | dropped (count : Nat) (final : Bool)
deriving DecidableEq, Repr

/-- Modelled from the spec: `disco.events.Status(message).send()` (in
`disco/events.py`, not under src/) — §7: "progress notifications are
best-effort and must never cause task failure if the notification
channel is unavailable (treated as fire-and-forget)"; an unavailable
channel drops the message instead of raising. -/
def statusSend (up : Bool) (count : Nat) (final : Bool) : NetEvent α :=
  if up then .delivered count final else .dropped count final

/-- `Worker.status_iter` run against a channel-availability schedule
`chan` (indexed by how many sends happened before); `n` counts yielded
items, `s` counts send attempts. -/
def statusIterNet (chan : Nat → Bool) (interval : Option Nat) :
    Nat → Nat → List α → List (NetEvent α)
  | n, s, [] => [statusSend (chan s) n true]
  | n, s, a :: rest =>
      if pyTruthy interval && (n + 1) % interval.getD 0 == 0 then
        statusSend (chan s) (n + 1) false
          :: NetEvent.yield a :: statusIterNet chan interval (n + 1) (s + 1) rest
      else NetEvent.yield a :: statusIterNet chan interval (n + 1) s rest

/-- The whole reporter run under a channel schedule. -/
def status_iter_net (chan : Nat → Bool) (interval : Option Nat)
    (items : List α) : List (NetEvent α) :=
  statusIterNet chan interval 0 0 items

/-- Items passed through, in order. -/
def netYields (evs : List (NetEvent α)) : List α :=
  evs.filterMap fun e => match e with
    | .yield a => some a
    | _ => none

/-- The send attempts (count, isFinal), in order, delivered or not. -/
def sendAttempts (evs : List (NetEvent α)) : List (Nat × Bool) :=
  evs.filterMap fun e => match e with
    | .delivered c f => some (c, f)
    | .dropped c f => some (c, f)
    | _ => none

theorem netYields_statusSend_cons (up : Bool) (c : Nat) (f : Bool)
    (l : List (NetEvent α)) :
    netYields (statusSend up c f :: l) = netYields l := by
  cases up <;> rfl

theorem sendAttempts_statusSend_cons (up : Bool) (c : Nat) (f : Bool)
    (l : List (NetEvent α)) :
    sendAttempts (statusSend up c f :: l) = (c, f) :: sendAttempts l := by
  cases up <;> rfl

theorem statusIterNet_yields (chan : Nat → Bool) (interval : Option Nat)
    (n s : Nat) (items : List α) :
    netYields (statusIterNet chan interval n s items) = items := by
  induction items generalizing n s with
  | nil =>
    rw [statusIterNet]
    rw [show netYields ([statusSend (chan s) n true] : List (NetEvent α))
        = netYields [] from netYields_statusSend_cons _ _ _ _]
    rfl
  | cons a rest ih =>
    rw [statusIterNet]
    by_cases h : (pyTruthy interval && (n + 1) % interval.getD 0 == 0) = true
    · rw [if_pos h, netYields_statusSend_cons]
      simpa [netYields] using ih (n + 1) (s + 1)
    · rw [if_neg h]
      simpa [netYields] using ih (n + 1) s

theorem statusIterNet_attempts (chan chan' : Nat → Bool)
    (interval : Option Nat) (n s s' : Nat) (items : List α) :
    sendAttempts (statusIterNet chan interval n s items)
      = sendAttempts (statusIterNet chan' interval n s' items) := by
  induction items generalizing n s s' with
  | nil =>
    rw [statusIterNet, statusIterNet, sendAttempts_statusSend_cons,
      sendAttempts_statusSend_cons]
  | cons a rest ih =>
    rw [statusIterNet, statusIterNet]
    by_cases h : (pyTruthy interval && (n + 1) % interval.getD 0 == 0) = true
    · rw [if_pos h, if_pos h, sendAttempts_statusSend_cons,
        sendAttempts_statusSend_cons]
      simpa [sendAttempts] using ih (n + 1) (s + 1) (s' + 1)
    · rw [if_neg h, if_neg h]
      simpa [sendAttempts] using ih (n + 1) s s'

theorem statusIterNet_final_attempt (chan : Nat → Bool)
    (interval : Option Nat) (n s : Nat) (items : List α) :
    (sendAttempts (statusIterNet chan interval n s items)).getLast?
      = some (n + items.length, true) := by
  induction items generalizing n s with
  | nil =>
    rw [statusIterNet, sendAttempts_statusSend_cons]
    simp [sendAttempts]
  | cons a rest ih =>
    rw [statusIterNet]
    have hne : ∀ m t, sendAttempts (statusIterNet chan interval m t rest) ≠ [] := by
      intro m t hcon
      have := ih m t
      rw [hcon] at this
      simp at this
    have hlen : n + 1 + rest.length = n + (a :: rest).length := by
      simp
      omega
    by_cases h : (pyTruthy interval && (n + 1) % interval.getD 0 == 0) = true
    · rw [if_pos h, sendAttempts_statusSend_cons,
        show sendAttempts (NetEvent.yield a :: statusIterNet chan interval (n+1) (s+1) rest)
          = sendAttempts (statusIterNet chan interval (n+1) (s+1) rest) from rfl,
        getLastQ_cons_of_ne_nil (hne _ _), ih (n + 1) (s + 1), hlen]
    · rw [if_neg h,
        show sendAttempts (NetEvent.yield a :: statusIterNet chan interval (n+1) s rest)
          = sendAttempts (statusIterNet chan interval (n+1) s rest) from rfl,
        ih (n + 1) s, hlen]

/-- C9: progress status notifications are fire-and-forget.  For every
channel-availability schedule, the reporter's item stream equals the
input sequence — channel failures while emitting periodic or final
messages leave item processing and output untouched — the same send
attempts are made regardless of availability, and the final attempt
carrying the total count is always made. -/
theorem status_notifications_fire_and_forget (chan chan' : Nat → Bool)
    (interval : Option Nat) (items : List α) :
    netYields (status_iter_net chan interval items) = items ∧
    netYields (status_iter_net chan interval items)
      = netYields (status_iter_net chan' interval items) ∧
    sendAttempts (status_iter_net chan interval items)
      = sendAttempts (status_iter_net chan' interval items) ∧
    (sendAttempts (status_iter_net chan interval items)).getLast?
      = some (items.length, true) := by
  refine ⟨statusIterNet_yields chan interval 0 0 items, ?_, ?_, ?_⟩
  · rw [status_iter_net, status_iter_net,
      statusIterNet_yields chan interval 0 0 items,
      statusIterNet_yields chan' interval 0 0 items]
  · exact statusIterNet_attempts chan chan' interval 0 0 0 items
  · simpa using statusIterNet_final_attempt chan interval 0 0 items

end Disco
